import Mathlib

/-!
Symbol recovery tool: embedding of `tools/enhanced_symbol_recovery.c`

The tool maps an ELF file read-only and walks its section header table.  The
mapped file is a list of bytes; a pointer into the mapping is an index into that
list.  A read at an index outside the list is a read outside the file: the run
ends there with `Outcome.fault` and the model does not follow the program any
further (in a run the rest of the last mapped page reads as zero bytes; what was
printed before such a read stays printed, see `parse_address_table_emitted`).  Multi-byte fields are read in little-endian order (the tool reads them
through native pointer casts on the 64-bit little-endian host it is built for).

What a function prints is modelled by the structured value it prints from: the
list of names, the list of (name, address) pairs, the text, the tag, the word.
-/

set_option maxRecDepth 100000

namespace SymbolRecovery

/-- One byte of the mapped file. -/
abbrev Byte := Fin 256

/-- How a run of a piece of the tool ends: it completes with a value, it reads
outside the mapped file, or the bound given to a loop of the model is used up. -/
inductive Outcome (α : Type) where
  | done (a : α)
  | fault
  | out_of_fuel
deriving DecidableEq

namespace Outcome

/-- Apply a function to the value of a completed run. -/
def map {α β : Type} (f : α → β) : Outcome α → Outcome β
  | done a => done (f a)
  | fault => fault
  | out_of_fuel => out_of_fuel

/-- Sequence two runs. -/
def bind {α β : Type} (x : Outcome α) (f : α → Outcome β) : Outcome β :=
  match x with
  | done a => f a
  | fault => fault
  | out_of_fuel => out_of_fuel

end Outcome

/-- The bytes of an ASCII string literal of the C source. -/
def str (s : String) : List Byte := s.data.map (fun c => Fin.ofNat c.toNat)

/-- The C string that starts at the head of `mem`: the bytes before the first
NUL.  `none` when no NUL is met before the end of the mapping. -/
def c_string : List Byte → Option (List Byte)
  | [] => none
  | b :: rest => if b = 0 then some [] else (c_string rest).map (b :: ·)

/-- The C string at pointer `map + p` (what `strlen`, `strstr`, `strcmp` and
`printf("%s")` read). -/
def string_at (map : List Byte) (p : Nat) : Option (List Byte) :=
  c_string (map.drop p)

/-- The `n` bytes at `map + p` (what `memcpy` or a pointer cast reads); `none`
when the range does not lie inside the mapping. -/
def read_bytes (map : List Byte) (p n : Nat) : Option (List Byte) :=
  if p + n ≤ map.length then some ((map.drop p).take n) else none

/-- Value of a little-endian unsigned integer. -/
def le_value : List Byte → Nat
  | [] => 0
  | b :: rest => b.val + 256 * le_value rest

/-- The little-endian unsigned integer of `n` bytes at `map + p`. -/
def read_le (map : List Byte) (p n : Nat) : Option Nat :=
  (read_bytes map p n).map le_value

/-- The content of a local `char buf[n + 1] = {0}` filled by `memcpy(buf, src, n)`
when printed with `%s` or measured with `strlen`: the bytes before the first NUL. -/
def buffer_string (field : List Byte) : List Byte :=
  field.takeWhile (fun b => b ≠ 0)

/-- The loop of `parse_symbol_names`, from the state `(pos, count)`.  The result
lists the names printed, in order; the index printed with each is its position
in the list plus the starting `count`. -/
def parse_symbol_names_loop (map : List Byte) (sh_offset sh_size : Nat) :
    Nat → Nat → Nat → Outcome (List (List Byte))
  | 0, pos, count =>
    if pos < sh_size ∧ count < 20 then Outcome.out_of_fuel else Outcome.done []
  | fuel + 1, pos, count =>
    if pos < sh_size ∧ count < 20 then
      match map[sh_offset + pos]? with
      | none => Outcome.fault
      | some b =>
        if b ≠ 0 then
          match string_at map (sh_offset + pos) with
          | none => Outcome.fault
          | some name =>
            (parse_symbol_names_loop map sh_offset sh_size fuel
              (pos + name.length + 1) (count + 1)).map (name :: ·)
        else
          parse_symbol_names_loop map sh_offset sh_size fuel (pos + 1) count
    else Outcome.done []

/-- Embedding of `parse_symbol_names(map, shdr)`: the names it prints.  Each
iteration advances `pos` by at least one, so `sh_size` iterations are enough. -/
def parse_symbol_names (map : List Byte) (sh_offset sh_size : Nat) :
    Outcome (List (List Byte)) :=
  parse_symbol_names_loop map sh_offset sh_size sh_size 0 0

/-- The loop of `parse_address_table`, from the state `(offset, symbol_count)`. -/
def parse_address_table_loop (map : List Byte) (sh_offset sh_size : Nat) :
    Nat → Nat → Nat → Outcome (List (List Byte × Nat))
  | 0, offset, symbol_count =>
    if offset < sh_size ∧ symbol_count < 10 then Outcome.out_of_fuel else Outcome.done []
  | fuel + 1, offset, symbol_count =>
    if offset < sh_size ∧ symbol_count < 10 then
      match read_bytes map (sh_offset + offset) 32 with
      | none => Outcome.fault
      | some field =>
        let name := buffer_string field
        let offset := offset + 32
        if offset + 8 > sh_size then Outcome.done []
        else
          match read_le map (sh_offset + offset) 8 with
          | none => Outcome.fault
          | some addr =>
            let offset := offset + 8
            if name.length > 0 then
              if offset ≥ sh_size then Outcome.done [(name, addr)]
              else
                (parse_address_table_loop map sh_offset sh_size fuel offset
                  (symbol_count + 1)).map ((name, addr) :: ·)
            else
              if offset ≥ sh_size then Outcome.done []
              else parse_address_table_loop map sh_offset sh_size fuel offset symbol_count
    else Outcome.done []

/-- Embedding of `parse_address_table(map, shdr)`: the (name, address) pairs it
prints.  Each iteration that continues advances `offset` by 40. -/
def parse_address_table (map : List Byte) (sh_offset sh_size : Nat) :
    Outcome (List (List Byte × Nat)) :=
  parse_address_table_loop map sh_offset sh_size sh_size 0 0

/-- Embedding of `parse_symbol_registry(map, shdr)`: the section is copied into a
fresh buffer of `sh_size + 1` bytes, a NUL is stored after it and the buffer is
printed with `%s`. -/
def parse_symbol_registry (map : List Byte) (sh_offset sh_size : Nat) :
    Outcome (List Byte) :=
  match read_bytes map sh_offset sh_size with
  | none => Outcome.fault
  | some registry => Outcome.done (buffer_string registry)

/-- Conversion of a 32-bit word to the C type `int` (two's complement). -/
def int32 (u : Nat) : Int :=
  if u % 2 ^ 32 < 2 ^ 31 then (u % 2 ^ 32 : Nat) else ((u % 2 ^ 32 : Nat) : Int) - 2 ^ 32

/-- The C function `strstr(haystack, needle) != NULL` on two C strings. -/
def strstr (haystack needle : List Byte) : Bool :=
  match haystack with
  | [] => needle.isEmpty
  | _ :: rest => needle.isPrefixOf haystack || strstr rest needle

/-- The C test `strcmp(name, literal) == 0` on two C strings. -/
def strcmp_eq (name literal : List Byte) : Bool := decide (name = literal)

/-- The constant `ELFMAG` of `<elf.h>` (`SELFMAG` = 4 bytes). -/
def ELFMAG : List Byte := [0x7f, 0x45, 0x4c, 0x46]

/-- The constant `SHT_SYMTAB` of `<elf.h>`. -/
def SHT_SYMTAB : Nat := 2

/-- The constant `SHT_DYNSYM` of `<elf.h>`. -/
def SHT_DYNSYM : Nat := 11

/-- Size of `Elf64_Shdr` in `<elf.h>`, the stride of `shdr[i]`. -/
def sizeof_Elf64_Shdr : Nat := 64

/-- Field `ehdr->e_shoff` (8 bytes at offset 40 of `Elf64_Ehdr`). -/
def e_shoff (map : List Byte) : Option Nat := read_le map 40 8

/-- Field `ehdr->e_shnum` (2 bytes at offset 60 of `Elf64_Ehdr`). -/
def e_shnum (map : List Byte) : Option Nat := read_le map 60 2

/-- Field `ehdr->e_shstrndx` (2 bytes at offset 62 of `Elf64_Ehdr`). -/
def e_shstrndx (map : List Byte) : Option Nat := read_le map 62 2

/-- Field `shdr[i].sh_name` (4 bytes at offset 0 of `Elf64_Shdr`); `shdr` is the
position of the section header table in the mapping. -/
def sh_name (map : List Byte) (shdr i : Nat) : Option Nat :=
  read_le map (shdr + sizeof_Elf64_Shdr * i) 4

/-- Field `shdr[i].sh_type` (4 bytes at offset 4 of `Elf64_Shdr`). -/
def sh_type (map : List Byte) (shdr i : Nat) : Option Nat :=
  read_le map (shdr + sizeof_Elf64_Shdr * i + 4) 4

/-- Field `shdr[i].sh_offset` (8 bytes at offset 24 of `Elf64_Shdr`). -/
def sh_offset (map : List Byte) (shdr i : Nat) : Option Nat :=
  read_le map (shdr + sizeof_Elf64_Shdr * i + 24) 8

/-- Field `shdr[i].sh_size` (8 bytes at offset 32 of `Elf64_Shdr`). -/
def sh_size (map : List Byte) (shdr i : Nat) : Option Nat :=
  read_le map (shdr + sizeof_Elf64_Shdr * i + 32) 8

/-- The name of section `i`: the C string at `strtab + shdr[i].sh_name`. -/
def section_name (map : List Byte) (shdr strtab i : Nat) : Option (List Byte) :=
  (sh_name map shdr i).bind (fun n => string_at map (strtab + n))

/-- The loop of the regular symbol table check, with `n` iterations left from
index `i`: it stops at the first header of type `SHT_SYMTAB` or `SHT_DYNSYM`. -/
def has_symbols_loop (map : List Byte) (shdr : Nat) : Nat → Nat → Outcome Bool
  | 0, _ => Outcome.done false
  | n + 1, i =>
    match sh_type map shdr i with
    | none => Outcome.fault
    | some t =>
      if t = SHT_SYMTAB ∨ t = SHT_DYNSYM then Outcome.done true
      else has_symbols_loop map shdr n (i + 1)

/-- The `.custom_symtab` branch: the tag printed by the magic string check, if
any. -/
def magic_string_check (map : List Byte) (sh_offset sh_size : Nat) :
    Outcome (Option (List Byte)) :=
  if sh_size ≥ 16 then
    match read_bytes map (sh_offset + sh_size - 16) 16 with
    | none => Outcome.fault
    | some magic => Outcome.done (some (buffer_string magic))
  else Outcome.done none

/-- The `.custom_data` branch: the `int` printed, if any. -/
def contains_data (map : List Byte) (sh_offset sh_size : Nat) : Outcome (Option Int) :=
  if sh_size ≥ 4 then
    match read_le map sh_offset 4 with
    | none => Outcome.fault
    | some word => Outcome.done (some (int32 word))
  else Outcome.done none

/-- What the dispatch on the exact section name prints below the generic
"Section / Offset / Size" lines. -/
inductive Decoded where
  | symbol_names (names : List (List Byte))
  | address_table (symbols : List (List Byte × Nat))
  | symbol_registry (text : List Byte)
  | custom_symtab (magic : Option (List Byte))
  | custom_functions (size : Nat)
  | custom_data (word : Option Int)
  | nothing
deriving DecidableEq

/-- The `if / else if` chain on `strcmp(name, ...) == 0` inside the section
loop. -/
def dispatch (map : List Byte) (name : List Byte) (sh_offset sh_size : Nat) :
    Outcome Decoded :=
  if strcmp_eq name (str ".symbol_names") then
    (parse_symbol_names map sh_offset sh_size).map Decoded.symbol_names
  else if strcmp_eq name (str ".address_table") then
    (parse_address_table map sh_offset sh_size).map Decoded.address_table
  else if strcmp_eq name (str ".symbol_registry") then
    (parse_symbol_registry map sh_offset sh_size).map Decoded.symbol_registry
  else if strcmp_eq name (str ".custom_symtab") then
    (magic_string_check map sh_offset sh_size).map Decoded.custom_symtab
  else if strcmp_eq name (str ".custom_functions") then
    Outcome.done (Decoded.custom_functions sh_size)
  else if strcmp_eq name (str ".custom_data") then
    (contains_data map sh_offset sh_size).map Decoded.custom_data
  else Outcome.done Decoded.nothing

/-- The substring filter of the section loop. -/
def is_custom (name : List Byte) : Bool :=
  strstr name (str "custom") || strstr name (str "symbol") || strstr name (str "address")

/-- One reported section: the generic lines and what the dispatch printed. -/
structure SectionReport where
  name : List Byte
  sh_offset : Nat
  sh_size : Nat
  content : Decoded
deriving DecidableEq

/-- The custom sections loop, with `n` iterations left from index `i` and the
counter `found_sections`; it gives the reported sections and the final counter. -/
def custom_sections_loop (map : List Byte) (shdr strtab : Nat) :
    Nat → Nat → Nat → Outcome (List SectionReport × Nat)
  | 0, _, found_sections => Outcome.done ([], found_sections)
  | n + 1, i, found_sections =>
    match section_name map shdr strtab i with
    | none => Outcome.fault
    | some name =>
      if is_custom name then
        match sh_offset map shdr i, sh_size map shdr i with
        | some off, some size =>
          (dispatch map name off size).bind (fun content =>
            (custom_sections_loop map shdr strtab n (i + 1) (found_sections + 1)).map
              (fun r => (SectionReport.mk name off size content :: r.1, r.2)))
        | _, _ => Outcome.fault
      else custom_sections_loop map shdr strtab n (i + 1) found_sections

/-- The report of a completed scan. -/
structure Report where
  has_symbols : Bool
  sections : List SectionReport
  found_sections : Nat
  symbol_recovery : String
deriving DecidableEq

/-- What a run of the tool prints. -/
inductive Printed where
  | usage
  | perror (call : String)
  | not_an_elf_file
  | report (r : Report)
deriving DecidableEq

/-- What `open`, `fstat` and `mmap` give for the path. -/
inductive FileAccess where
  | open_fails
  | fstat_fails
  | mmap_fails
  | mapped (map : List Byte)

/-- The body of `find_custom_sections` once the file is mapped. -/
def scan (map : List Byte) : Outcome Printed :=
  match read_bytes map 0 4 with
  | none => Outcome.fault
  | some e_ident =>
    if e_ident ≠ ELFMAG then Outcome.done Printed.not_an_elf_file
    else
      match e_shoff map, e_shnum map, e_shstrndx map with
      | some shdr, some shnum, some shstrndx =>
        match sh_offset map shdr shstrndx with
        | none => Outcome.fault
        | some strtab =>
          (has_symbols_loop map shdr shnum 0).bind (fun has_symbols =>
            (custom_sections_loop map shdr strtab shnum 0 0).bind (fun r =>
              Outcome.done (Printed.report
                { has_symbols := has_symbols
                  sections := r.1
                  found_sections := r.2
                  symbol_recovery := if r.2 > 0 then "POSSIBLE" else "FAILED" })))
      | _, _, _ => Outcome.fault

/-- Embedding of `find_custom_sections(filename)`. -/
def find_custom_sections (file : FileAccess) : Outcome Printed :=
  match file with
  | FileAccess.open_fails => Outcome.done (Printed.perror "open")
  | FileAccess.fstat_fails => Outcome.done (Printed.perror "fstat")
  | FileAccess.mmap_fails => Outcome.done (Printed.perror "mmap")
  | FileAccess.mapped map => scan map

/-- Embedding of `main(argc, argv)`: what is printed and the exit status. -/
def main (argc : Nat) (file : FileAccess) : Outcome (Printed × Nat) :=
  if argc ≠ 2 then Outcome.done (Printed.usage, 1)
  else (find_custom_sections file).map (fun printed => (printed, 0))

/-- The `n` little-endian bytes of `v`, as a producer stores an integer. -/
def le_bytes : Nat → Nat → List Byte
  | 0, _ => []
  | n + 1, v => Fin.ofNat (v % 256) :: le_bytes n (v / 256)

/-- A run of `n` NUL bytes. -/
def zeros (n : Nat) : List Byte := List.replicate n 0

/-- A name NUL-padded to the 32 bytes of a `char name[32]` field. -/
def pad32 (name : List Byte) : List Byte := name ++ zeros (32 - name.length)

/-- The bytes of a name catalogue: before each name a run of `p` NUL bytes (the
first component), then the name and its terminating NUL. -/
def name_list_bytes : List (Nat × List Byte) → List Byte
  | [] => []
  | item :: rest => zeros item.1 ++ (item.2 ++ (0 : Byte) :: name_list_bytes rest)

/-- The bytes of a list of names, each followed by its terminating NUL, as a
producer lays out `"name_1\0name_2\0..."`. -/
def nul_terminated : List (List Byte) → List Byte
  | [] => []
  | name :: rest => name ++ (0 : Byte) :: nul_terminated rest

/-- The sentinel name that closes the producer's `symbol_names` array. -/
def END_SYMBOLS : List Byte := str "END_SYMBOLS"

/-- The bytes of consecutive records, each given by its name field and its
address field. -/
def records_bytes : List (List Byte × List Byte) → List Byte
  | [] => []
  | r :: rest => r.1 ++ (r.2 ++ records_bytes rest)

/-- What a 40-byte record holds: the name in its 32-byte field and the value of
its 8-byte address field. -/
def record_value (r : List Byte × List Byte) : List Byte × Nat :=
  (buffer_string r.1, le_value r.2)

/-- The record a producer stores for a (name, address) pair: the name NUL-padded
to 32 bytes and the address as 8 little-endian bytes. -/
def address_record (e : List Byte × Nat) : List Byte × List Byte :=
  (pad32 e.1, le_bytes 8 e.2)

/-- The bytes of an `.address_table` section holding the given pairs. -/
def address_table_bytes (symbols : List (List Byte × Nat)) : List Byte :=
  records_bytes (symbols.map address_record)

/-- A 64-byte `Elf64_Ehdr` with the given `e_shoff`, `e_shnum` and `e_shstrndx`
(the other fields after `e_ident` are zero). -/
def elf64_ehdr (shoff shnum shstrndx : Nat) : List Byte :=
  ELFMAG ++ zeros 36 ++ le_bytes 8 shoff ++ zeros 12 ++ le_bytes 2 shnum ++ le_bytes 2 shstrndx

/-- A 64-byte `Elf64_Shdr` with the given `sh_name`, `sh_type`, `sh_offset` and
`sh_size` (the other fields are zero). -/
def elf64_shdr (name type offset size : Nat) : List Byte :=
  le_bytes 4 name ++ le_bytes 4 type ++ zeros 16 ++ le_bytes 8 offset ++ le_bytes 8 size
    ++ zeros 24

/-- The section headers of `example_elf`: the names are laid out one after the
other from `name_pos` in the string table, the contents from `data_pos` in the
file. -/
def example_shdrs : List (List Byte × Nat × List Byte) → Nat → Nat → List Byte
  | [], _, _ => []
  | s :: rest, name_pos, data_pos =>
    elf64_shdr name_pos s.2.1 data_pos s.2.2.length
      ++ example_shdrs rest (name_pos + s.1.length + 1) (data_pos + s.2.2.length)

/-- A small ELF file with the given sections (name, type, content): the ELF
header, the section header table (the given sections, then `.shstrtab`), the
section name string table and the contents. -/
def example_elf (sections : List (List Byte × Nat × List Byte)) : List Byte :=
  let names := nul_terminated (sections.map (fun s => s.1) ++ [str ".shstrtab"])
  let strtab_pos := 64 + 64 * (sections.length + 1)
  let data_pos := strtab_pos + names.length
  elf64_ehdr 64 (sections.length + 1) sections.length
    ++ example_shdrs sections 0 data_pos
    ++ elf64_shdr (names.length - 10) 3 strtab_pos names.length
    ++ names
    ++ (sections.map (fun s => s.2.2)).flatten

/-- A stripped file that keeps one `.custom_data` section holding the word 42. -/
def stripped_example : List Byte :=
  example_elf [(str ".custom_data", 1, le_bytes 4 42)]

/-- A file with three sections that pass the substring filter without being one
of the five documented section names. -/
def unknown_sections_example : List Byte :=
  example_elf [(str "customXYZ", 1, [1, 2, 3]), (str ".symbol_names2", 1, str "foo" ++ [0]),
    (str ".custom_functions", 1, [0xc3])]

/-- A file that still has its `.symtab` section, between a `.text` and a
`.custom_data` section. -/
def unstripped_example : List Byte :=
  example_elf [(str ".text", 1, [0xc3]), (str ".symtab", 2, zeros 24),
    (str ".custom_data", 1, le_bytes 4 42)]

/-- The report the tool prints for `stripped_example`. -/
def stripped_example_report : Report :=
  { has_symbols := false
    sections := [⟨str ".custom_data", 215, 4, Decoded.custom_data (some 42)⟩]
    found_sections := 1
    symbol_recovery := "POSSIBLE" }

/-- The report the tool prints for `unstripped_example`. -/
def unstripped_example_report : Report :=
  { has_symbols := true
    sections := [⟨str ".custom_data", 382, 4, Decoded.custom_data (some 42)⟩]
    found_sections := 1
    symbol_recovery := "POSSIBLE" }

/-- The bytes of the producer's `symbol_registry` array without the NUL that
ends the string literal. -/
def symbol_registry_text : List Byte :=
  str "SYMBOL_START\nunused_but_visible_function\nglobal_visible_variable\nfunction_pointer\nSYMBOL_END\n"

/-- Whether section `i` passes the substring filter of the section loop. -/
def section_is_custom (map : List Byte) (shdr strtab i : Nat) : Bool :=
  match section_name map shdr strtab i with
  | some name => is_custom name
  | none => false

/-- A file with two sections named `.custom_data`, of different offsets and
sizes, around a `.text` section. -/
def duplicate_sections_example : List Byte :=
  example_elf [(str ".custom_data", 1, le_bytes 4 42), (str ".text", 1, [0xc3]),
    (str ".custom_data", 1, le_bytes 8 7)]

/-- The report the tool prints for `duplicate_sections_example`. -/
def duplicate_sections_report : Report :=
  { has_symbols := false
    sections := [⟨str ".custom_data", 362, 4, Decoded.custom_data (some 42)⟩,
      ⟨str ".custom_data", 367, 8, Decoded.custom_data (some 7)⟩]
    found_sections := 2
    symbol_recovery := "POSSIBLE" }

/-- The six section names that have a branch of their own in the dispatch. -/
def dispatch_names : List (List Byte) :=
  [str ".symbol_names", str ".address_table", str ".symbol_registry", str ".custom_symtab",
    str ".custom_functions", str ".custom_data"]

/-- The file `stripped_example` with a header that declares one section and the
string table index 1: `e_shstrndx` is not below `e_shnum`. -/
def bad_strndx_example : List Byte :=
  elf64_ehdr 64 1 1 ++ stripped_example.drop 64

/-- A file whose section header table is at the end of the file and is cut
after the first 32 bytes of its second header: the declared table, 2 headers of
64 bytes from offset 91, does not lie inside the file. -/
def truncated_table_example : List Byte :=
  elf64_ehdr 91 2 1 ++ nul_terminated [str ".custom_data", str ".shstrtab"] ++ le_bytes 4 42
    ++ elf64_shdr 0 1 87 4 ++ (elf64_shdr 13 3 64 23).take 32

/-- The report the tool prints for `truncated_table_example`. -/
def truncated_table_report : Report :=
  { has_symbols := false
    sections := [⟨str ".custom_data", 87, 4, Decoded.custom_data (some 42)⟩]
    found_sections := 1
    symbol_recovery := "POSSIBLE" }

/-- A file of 219 bytes whose `.custom_data` section header declares the offset
215 and the size 1000: the section range ends far after the end of the file. -/
def oversized_section_example : List Byte :=
  elf64_ehdr 64 2 1 ++ elf64_shdr 0 1 215 1000 ++ elf64_shdr 13 3 192 23
    ++ nul_terminated [str ".custom_data", str ".shstrtab"] ++ le_bytes 4 42

/-- The report the tool prints for `oversized_section_example`. -/
def oversized_section_report : Report :=
  { has_symbols := false
    sections := [⟨str ".custom_data", 215, 1000, Decoded.custom_data (some 42)⟩]
    found_sections := 1
    symbol_recovery := "POSSIBLE" }

/-- A file whose `.symbol_names` section is the 2 bytes `ab`, without a NUL, and
is followed in the file by the 4 bytes `cd\0\0` of a `.custom_data` section. -/
def unterminated_names_example : List Byte :=
  example_elf [(str ".symbol_names", 1, str "ab"), (str ".custom_data", 1, str "cd" ++ [0, 0])]

/-- The report the tool prints for `unterminated_names_example`. -/
def unterminated_names_report : Report :=
  { has_symbols := false
    sections := [⟨str ".symbol_names", 293, 2, Decoded.symbol_names [str "abcd"]⟩,
      ⟨str ".custom_data", 295, 4, Decoded.custom_data (some 25699)⟩]
    found_sections := 2
    symbol_recovery := "POSSIBLE" }

/-- The loop of `parse_address_table` with what it has printed when the run
ends: each record is printed inside the iteration that reads it, before the
reads of the next iteration, so the records printed before a read outside the
file stay printed.  The second component tells how the run ends. -/
def parse_address_table_emitted_loop (map : List Byte) (sh_offset sh_size : Nat) :
    Nat → Nat → Nat → List (List Byte × Nat) × Outcome Unit
  | 0, offset, symbol_count =>
    if offset < sh_size ∧ symbol_count < 10 then ([], Outcome.out_of_fuel)
    else ([], Outcome.done ())
  | fuel + 1, offset, symbol_count =>
    if offset < sh_size ∧ symbol_count < 10 then
      match read_bytes map (sh_offset + offset) 32 with
      | none => ([], Outcome.fault)
      | some field =>
        let name := buffer_string field
        let offset := offset + 32
        if offset + 8 > sh_size then ([], Outcome.done ())
        else
          match read_le map (sh_offset + offset) 8 with
          | none => ([], Outcome.fault)
          | some addr =>
            let offset := offset + 8
            if name.length > 0 then
              if offset ≥ sh_size then ([(name, addr)], Outcome.done ())
              else
                ((name, addr) :: (parse_address_table_emitted_loop map sh_offset sh_size fuel
                    offset (symbol_count + 1)).1,
                  (parse_address_table_emitted_loop map sh_offset sh_size fuel offset
                    (symbol_count + 1)).2)
            else
              if offset ≥ sh_size then ([], Outcome.done ())
              else parse_address_table_emitted_loop map sh_offset sh_size fuel offset
                symbol_count
    else ([], Outcome.done ())

/-- The (name, address) pairs that `parse_address_table(map, shdr)` has printed
when its run ends, and how the run ends. -/
def parse_address_table_emitted (map : List Byte) (sh_offset sh_size : Nat) :
    List (List Byte × Nat) × Outcome Unit :=
  parse_address_table_emitted_loop map sh_offset sh_size sh_size 0 0


/-! ## Runs -/

theorem Outcome.map_same {α : Type} (x : Outcome α) : x.map (fun a => a) = x := by
  cases x <;> rfl

theorem Outcome.map_comp {α β γ : Type} (f : α → β) (g : β → γ) (x : Outcome α) :
    (x.map f).map g = x.map (fun a => g (f a)) := by
  cases x <;> rfl

/-! ## Reads in a mapping that is given in pieces -/

theorem mapping_assoc (pre a b post : List Byte) :
    pre ++ (a ++ b) ++ post = pre ++ (a ++ (b ++ post)) := by
  simp

theorem c_string_terminated (name rest : List Byte) (h : (0 : Byte) ∉ name) :
    c_string (name ++ 0 :: rest) = some name := by
  induction name with
  | nil => simp [c_string]
  | cons b t ih =>
    have hb : b ≠ 0 := fun e => h (by simp [e])
    have ht : (0 : Byte) ∉ t := fun e => h (by simp [e])
    simp [c_string, hb, ih ht]

theorem string_at_piece (L name R : List Byte) (p : Nat) (hp : L.length = p)
    (h : (0 : Byte) ∉ name) : string_at (L ++ (name ++ 0 :: R)) p = some name := by
  unfold string_at
  rw [List.drop_left' hp]
  exact c_string_terminated name R h

theorem byte_at_piece (L R : List Byte) (b : Byte) (p : Nat) (hp : L.length = p) :
    (L ++ b :: R)[p]? = some b := by
  subst hp
  rw [List.getElem?_append_right (Nat.le_refl _)]
  simp

theorem read_bytes_piece (L field R : List Byte) (p n : Nat) (hp : L.length = p)
    (hn : field.length = n) : read_bytes (L ++ (field ++ R)) p n = some field := by
  subst hp hn
  simp [read_bytes]

/-! ## The loop of `parse_symbol_names` -/

theorem parse_symbol_names_loop_fuel (map : List Byte) (off size : Nat) :
    ∀ (f1 f2 pos count : Nat), size - pos ≤ f1 → size - pos ≤ f2 →
      parse_symbol_names_loop map off size f1 pos count
        = parse_symbol_names_loop map off size f2 pos count := by
  intro f1
  induction f1 with
  | zero =>
    intro f2 pos count h1 _
    have hp : ¬ pos < size := by omega
    cases f2 <;> simp [parse_symbol_names_loop, hp]
  | succ f1 ih =>
    intro f2 pos count h1 h2
    cases f2 with
    | zero =>
      have hp : ¬ pos < size := by omega
      simp [parse_symbol_names_loop, hp]
    | succ f2 =>
      simp only [parse_symbol_names_loop]
      split
      · rename_i hc
        split
        · rfl
        · split
          · split
            · rfl
            · rw [ih f2 _ _ (by omega) (by omega)]
          · rw [ih f2 _ _ (by omega) (by omega)]
      · rfl

theorem parse_symbol_names_loop_exit (map : List Byte) (off size f pos count : Nat)
    (h : ¬ (pos < size ∧ count < 20)) :
    parse_symbol_names_loop map off size f pos count = Outcome.done [] := by
  cases f <;> simp only [parse_symbol_names_loop, if_neg h]

theorem parse_symbol_names_loop_zeros (off size : Nat) (R : List Byte) :
    ∀ (p : Nat) (L : List Byte) (pos count f : Nat), L.length = off + pos →
      pos + p ≤ size → size - pos ≤ f →
      parse_symbol_names_loop (L ++ (zeros p ++ R)) off size f pos count
        = parse_symbol_names_loop (L ++ (zeros p ++ R)) off size f (pos + p) count := by
  intro p
  induction p with
  | zero => intro L pos count f _ _ _; rfl
  | succ p ih =>
    intro L pos count f hL hp hf
    by_cases hc : count < 20
    · obtain ⟨g, rfl⟩ : ∃ g, f = g + 1 := ⟨f - 1, by omega⟩
      have hcond : pos < size ∧ count < 20 := ⟨by omega, hc⟩
      have hz : zeros (p + 1) ++ R = (0 : Byte) :: (zeros p ++ R) := by
        simp [zeros, List.replicate_succ]
      have hb : (L ++ (zeros (p + 1) ++ R))[off + pos]? = some (0 : Byte) := by
        rw [hz]; exact byte_at_piece L _ 0 _ hL
      rw [parse_symbol_names_loop, if_pos hcond, hb]
      simp only [ne_eq, not_true_eq_false, if_false]
      rw [parse_symbol_names_loop_fuel _ off size g (g + 1) (pos + 1) count (by omega) (by omega)]
      have hm : L ++ (zeros (p + 1) ++ R) = (L ++ [(0 : Byte)]) ++ (zeros p ++ R) := by
        rw [hz]; simp
      rw [hm, ih (L ++ [(0 : Byte)]) (pos + 1) count (g + 1) (by simp; omega) (by omega) (by omega)]
      rw [show pos + 1 + p = pos + (p + 1) by omega]
    · rw [parse_symbol_names_loop_exit _ _ _ _ _ _ (fun h => hc h.2),
        parse_symbol_names_loop_exit _ _ _ _ _ _ (fun h => hc h.2)]

theorem parse_symbol_names_loop_name (off size : Nat) (L name R : List Byte)
    (pos count f : Nat) (hL : L.length = off + pos) (hne : name ≠ [])
    (h0 : (0 : Byte) ∉ name) (hpos : pos < size) (hc : count < 20) (hf : size - pos ≤ f) :
    parse_symbol_names_loop (L ++ (name ++ 0 :: R)) off size f pos count
      = (parse_symbol_names_loop (L ++ (name ++ 0 :: R)) off size f
          (pos + name.length + 1) (count + 1)).map (name :: ·) := by
  obtain ⟨g, rfl⟩ : ∃ g, f = g + 1 := ⟨f - 1, by omega⟩
  obtain ⟨b, t, rfl⟩ : ∃ b t, name = b :: t := by
    cases name with
    | nil => exact absurd rfl hne
    | cons b t => exact ⟨b, t, rfl⟩
  have hb0 : b ≠ 0 := fun e => h0 (by simp [e])
  have hb : (L ++ (b :: t ++ 0 :: R))[off + pos]? = some b := by
    rw [List.cons_append]; exact byte_at_piece L _ b _ hL
  rw [parse_symbol_names_loop, if_pos ⟨hpos, hc⟩, hb]
  simp only [ne_eq, hb0, not_false_eq_true, if_true]
  rw [string_at_piece L (b :: t) R _ hL h0]
  simp only
  rw [parse_symbol_names_loop_fuel _ off size g (g + 1) _ (count + 1) (by omega) (by omega)]

theorem parse_symbol_names_loop_items (off size : Nat) (R : List Byte) :
    ∀ (items : List (Nat × List Byte)) (L : List Byte) (pos count f : Nat),
      (∀ it ∈ items, it.2 ≠ [] ∧ (0 : Byte) ∉ it.2) →
      L.length = off + pos →
      pos + (name_list_bytes items).length ≤ size →
      size - pos ≤ f →
      count + items.length ≤ 20 →
      parse_symbol_names_loop (L ++ (name_list_bytes items ++ R)) off size f pos count
        = (parse_symbol_names_loop (L ++ (name_list_bytes items ++ R)) off size f
            (pos + (name_list_bytes items).length) (count + items.length)).map
            (items.map Prod.snd ++ ·) := by
  intro items
  induction items with
  | nil =>
    intro L pos count f _ _ _ _ _
    simp only [name_list_bytes, List.length_nil, Nat.add_zero, List.map_nil, List.nil_append]
    exact (Outcome.map_same _).symm
  | cons it rest ih =>
    intro L pos count f hit hL hsz hf hcnt
    obtain ⟨p, name⟩ := it
    have hname := hit (p, name) (by simp)
    have hrest : ∀ it ∈ rest, it.2 ≠ [] ∧ (0 : Byte) ∉ it.2 :=
      fun it h => hit it (by simp [h])
    simp only [name_list_bytes, List.length_append, List.length_cons, zeros,
      List.length_replicate] at hsz
    simp only [List.length_cons] at hcnt
    have e1 : L ++ (name_list_bytes ((p, name) :: rest) ++ R)
        = L ++ (zeros p ++ (name ++ 0 :: (name_list_bytes rest ++ R))) := by
      simp [name_list_bytes]
    have e2 : L ++ (name_list_bytes ((p, name) :: rest) ++ R)
        = (L ++ zeros p) ++ (name ++ 0 :: (name_list_bytes rest ++ R)) := by
      simp [name_list_bytes]
    have e3 : L ++ (name_list_bytes ((p, name) :: rest) ++ R)
        = (L ++ zeros p ++ name ++ [0]) ++ (name_list_bytes rest ++ R) := by
      simp [name_list_bytes]
    have hlen : (name_list_bytes ((p, name) :: rest)).length
        = p + name.length + 1 + (name_list_bytes rest).length := by
      simp [name_list_bytes, zeros]; omega
    have s1 := parse_symbol_names_loop_zeros off size (name ++ 0 :: (name_list_bytes rest ++ R))
      p L pos count f hL (by omega) hf
    have s2 := parse_symbol_names_loop_name off size (L ++ zeros p) name
      (name_list_bytes rest ++ R) (pos + p) count f (by simp [zeros]; omega) hname.1 hname.2
      (by have := List.length_pos.mpr hname.1; omega) (by omega) (by omega)
    have s3 := ih (L ++ zeros p ++ name ++ [0]) (pos + p + name.length + 1) (count + 1) f hrest
      (by simp [zeros]; omega) (by omega) (by omega) (by omega)
    rw [← e1] at s1
    rw [← e2] at s2
    rw [← e3] at s3
    rw [s1, s2, s3, hlen]
    rw [show pos + p + name.length + 1 + (name_list_bytes rest).length
        = pos + (p + name.length + 1 + (name_list_bytes rest).length) by omega,
      show count + 1 + rest.length = count + (rest.length + 1) by omega]
    rw [Outcome.map_comp]
    rfl

theorem name_list_bytes_append (a b : List (Nat × List Byte)) :
    name_list_bytes (a ++ b) = name_list_bytes a ++ name_list_bytes b := by
  induction a with
  | nil => rfl
  | cons it rest ih => simp [name_list_bytes, ih]

theorem nul_terminated_eq (names : List (List Byte)) :
    nul_terminated names = name_list_bytes (names.map (fun n => (0, n))) := by
  induction names with
  | nil => rfl
  | cons n rest ih => simp [nul_terminated, name_list_bytes, zeros, ih]

theorem nul_terminated_append (a b : List (List Byte)) :
    nul_terminated (a ++ b) = nul_terminated a ++ nul_terminated b := by
  induction a with
  | nil => rfl
  | cons n rest ih => simp [nul_terminated, ih]

/-- A catalogue of non-empty NUL-free names, with any number of NUL bytes before
each name and after the last one, decodes to its first 20 names. -/
theorem parse_symbol_names_catalogue (pre post : List Byte) (items : List (Nat × List Byte))
    (q : Nat) (h : ∀ it ∈ items, it.2 ≠ [] ∧ (0 : Byte) ∉ it.2) :
    parse_symbol_names (pre ++ (name_list_bytes items ++ zeros q) ++ post) pre.length
        (name_list_bytes items ++ zeros q).length
      = Outcome.done ((items.map Prod.snd).take 20) := by
  have hsplit : name_list_bytes items
      = name_list_bytes (items.take 20) ++ name_list_bytes (items.drop 20) := by
    rw [← name_list_bytes_append, List.take_append_drop]
  have hmap : pre ++ (name_list_bytes items ++ zeros q) ++ post
      = pre ++ (name_list_bytes (items.take 20)
          ++ (name_list_bytes (items.drop 20) ++ (zeros q ++ post))) := by
    rw [hsplit]; simp
  have hlen : (name_list_bytes items ++ zeros q).length
      = (name_list_bytes (items.take 20)).length + (name_list_bytes (items.drop 20)).length
          + q := by
    rw [hsplit]; simp [zeros]; omega
  have htake : ∀ it ∈ items.take 20, it.2 ≠ [] ∧ (0 : Byte) ∉ it.2 :=
    fun it hit => h it (List.mem_of_mem_take hit)
  unfold parse_symbol_names
  rw [hmap, hlen]
  rw [parse_symbol_names_loop_items pre.length _ _ (items.take 20) pre 0 0 _ htake (by simp)
    (by omega) (by omega) (by simp)]
  simp only [Nat.zero_add]
  by_cases hfull : (items.take 20).length = 20
  · rw [parse_symbol_names_loop_exit _ _ _ _ _ _ (by omega)]
    simp [Outcome.map, List.map_take]
  · have hlt : items.length < 20 := by
      simp only [List.length_take] at hfull; omega
    have hdrop : items.drop 20 = [] := List.drop_eq_nil_of_le (by omega)
    have htk : items.take 20 = items := List.take_of_length_le (by omega)
    rw [hdrop, htk]
    simp only [name_list_bytes, List.nil_append, List.length_nil, Nat.add_zero]
    have e : pre ++ (name_list_bytes items ++ (zeros q ++ post))
        = (pre ++ name_list_bytes items) ++ (zeros q ++ post) := by simp
    rw [e, parse_symbol_names_loop_zeros pre.length _ post q (pre ++ name_list_bytes items)
      _ _ _ (by simp) (by omega) (by omega)]
    rw [parse_symbol_names_loop_exit _ _ _ _ _ _ (by omega)]
    simp [Outcome.map, List.take_of_length_le (show (items.map Prod.snd).length ≤ 20 by simp; omega)]

theorem Outcome.map_eq_done {α β : Type} {f : α → β} {x : Outcome α} {b : β}
    (h : x.map f = Outcome.done b) : ∃ a, x = Outcome.done a ∧ f a = b := by
  cases x with
  | done a => exact ⟨a, rfl, by simpa [Outcome.map] using h⟩
  | fault => simp [Outcome.map] at h
  | out_of_fuel => simp [Outcome.map] at h

theorem string_at_ne_nil (map : List Byte) (p : Nat) (b : Byte) (name : List Byte)
    (hb : map[p]? = some b) (h0 : b ≠ 0) (hs : string_at map p = some name) : name ≠ [] := by
  obtain ⟨hlt, hget⟩ := List.getElem?_eq_some.mp hb
  unfold string_at at hs
  rw [List.drop_eq_getElem_cons hlt, hget] at hs
  simp only [c_string, if_neg h0] at hs
  cases hc : c_string (List.drop (p + 1) map) with
  | none => simp [hc] at hs
  | some t =>
    simp [hc] at hs
    rw [← hs]
    simp

theorem parse_symbol_names_loop_bound (map : List Byte) (off size : Nat) :
    ∀ (f pos count : Nat) (r : List (List Byte)),
      parse_symbol_names_loop map off size f pos count = Outcome.done r →
      r.length ≤ 20 - count ∧ ∀ n ∈ r, n ≠ [] := by
  intro f
  induction f with
  | zero =>
    intro pos count r h
    simp only [parse_symbol_names_loop] at h
    split at h
    · simp at h
    · simp only [Outcome.done.injEq] at h
      subst h
      simp
  | succ f ih =>
    intro pos count r h
    simp only [parse_symbol_names_loop] at h
    split at h
    · rename_i hc
      split at h
      · simp at h
      · rename_i b hb
        split at h
        · rename_i hb0
          split at h
          · simp at h
          · rename_i name hs
            obtain ⟨r1, hr1, rfl⟩ := Outcome.map_eq_done h
            obtain ⟨hlen, hne⟩ := ih _ _ _ hr1
            refine ⟨by simp only [List.length_cons]; omega, ?_⟩
            intro n hn
            rcases List.mem_cons.mp hn with rfl | hn
            · exact string_at_ne_nil map _ b _ hb hb0 hs
            · exact hne n hn
        · exact ih _ _ _ h
    · simp only [Outcome.done.injEq] at h
      subst h
      simp

theorem parse_symbol_names_loop_terminates (map : List Byte) (off size : Nat) :
    ∀ (f pos count : Nat), size - pos ≤ f →
      parse_symbol_names_loop map off size f pos count ≠ Outcome.out_of_fuel := by
  intro f
  induction f with
  | zero =>
    intro pos count hf
    have hp : ¬ pos < size := by omega
    simp [parse_symbol_names_loop, hp]
  | succ f ih =>
    intro pos count hf
    simp only [parse_symbol_names_loop]
    split
    · split
      · simp
      · split
        · split
          · simp
          · intro h
            rename_i name _
            have h1 := ih (pos + name.length + 1) (count + 1) (by omega)
            cases hx : parse_symbol_names_loop map off size f (pos + name.length + 1) (count + 1) with
            | done a => rw [hx] at h; simp [Outcome.map] at h
            | fault => rw [hx] at h; simp [Outcome.map] at h
            | out_of_fuel => exact h1 hx
        · exact ih _ _ (by omega)
    · simp

/-! ## Claims on `parse_symbol_names` -/

/-- C1 (as the code behaves): for a `.symbol_names` section whose bytes are
`name_1\0 ... name_k\0 END_SYMBOLS\0` followed by arbitrary further bytes
(`k < 19`, each name non-empty and NUL-free), `parse_symbol_names` prints
`name_1, ..., name_k, END_SYMBOLS` as its first `k + 1` entries and then goes on
with its loop from the byte after the sentinel's NUL with `count = k + 1`: the
entries found there are printed too. -/
theorem parse_symbol_names_past_sentinel (pre post rest : List Byte)
    (names : List (List Byte)) (hk : names.length < 19)
    (hn : ∀ n ∈ names, n ≠ [] ∧ (0 : Byte) ∉ n) :
    parse_symbol_names (pre ++ (nul_terminated (names ++ [END_SYMBOLS]) ++ rest) ++ post)
        pre.length (nul_terminated (names ++ [END_SYMBOLS]) ++ rest).length
      = (parse_symbol_names_loop
          (pre ++ (nul_terminated (names ++ [END_SYMBOLS]) ++ rest) ++ post) pre.length
          (nul_terminated (names ++ [END_SYMBOLS]) ++ rest).length
          (nul_terminated (names ++ [END_SYMBOLS]) ++ rest).length
          (nul_terminated (names ++ [END_SYMBOLS])).length (names.length + 1)).map
          (fun more => names ++ END_SYMBOLS :: more) := by
  have hitems : ∀ it ∈ (names ++ [END_SYMBOLS]).map (fun n => ((0 : Nat), n)),
      it.2 ≠ [] ∧ (0 : Byte) ∉ it.2 := by
    intro it hit
    obtain ⟨n, hmem, rfl⟩ := List.mem_map.mp hit
    rcases List.mem_append.mp hmem with h | h
    · exact hn n h
    · rw [List.mem_singleton.mp h]
      exact ⟨by decide, by decide⟩
  unfold parse_symbol_names
  rw [nul_terminated_eq, mapping_assoc,
    parse_symbol_names_loop_items pre.length _ (rest ++ post) _ pre 0 0 _ hitems (by simp)
      (by simp) (by omega) (by simp; omega)]
  simp only [Nat.zero_add, List.length_map, List.length_append, List.length_singleton,
    List.map_map]
  congr 1
  funext more
  simp [Function.comp_def]

/-- C1, counterexample: the section `foo\0bar\0END_SYMBOLS\0extra\0` decodes to
four names, the last one read after the sentinel, not to the three names up to
the sentinel. -/
theorem parse_symbol_names_sentinel_counterexample :
    parse_symbol_names
        (nul_terminated [str "foo", str "bar", END_SYMBOLS] ++ nul_terminated [str "extra"]) 0 26
      = Outcome.done [str "foo", str "bar", END_SYMBOLS, str "extra"]
    ∧ parse_symbol_names
        (nul_terminated [str "foo", str "bar", END_SYMBOLS] ++ nul_terminated [str "extra"]) 0 26
      ≠ Outcome.done [str "foo", str "bar", END_SYMBOLS] := by
  decide

/-- C1, instance of `parse_symbol_names_past_sentinel` at `foo`, `bar` followed
by `extra\0`. -/
theorem parse_symbol_names_past_sentinel_witness :
    parse_symbol_names
        ([] ++ (nul_terminated ([str "foo", str "bar"] ++ [END_SYMBOLS]) ++ nul_terminated [str "extra"]) ++ [])
        0 (nul_terminated ([str "foo", str "bar"] ++ [END_SYMBOLS]) ++ nul_terminated [str "extra"]).length
      = Outcome.done [str "foo", str "bar", END_SYMBOLS, str "extra"] :=
  (parse_symbol_names_past_sentinel [] [] (nul_terminated [str "extra"]) [str "foo", str "bar"]
    (by decide) (by decide)).trans (by decide)

/-- C2: for every list of at most 19 non-empty NUL-free names, the section
`name_1\0 ... name_k\0 END_SYMBOLS\0` followed by nothing or by NUL bytes only
decodes with `parse_symbol_names` to exactly `[name_1, ..., name_k, END_SYMBOLS]`,
wherever the section lies in the file. -/
theorem parse_symbol_names_round_trip (pre post : List Byte) (names : List (List Byte))
    (q : Nat) (hk : names.length ≤ 19) (hn : ∀ n ∈ names, n ≠ [] ∧ (0 : Byte) ∉ n) :
    parse_symbol_names (pre ++ (nul_terminated (names ++ [END_SYMBOLS]) ++ zeros q) ++ post)
        pre.length (nul_terminated (names ++ [END_SYMBOLS]) ++ zeros q).length
      = Outcome.done (names ++ [END_SYMBOLS]) := by
  have hitems : ∀ it ∈ (names ++ [END_SYMBOLS]).map (fun n => ((0 : Nat), n)),
      it.2 ≠ [] ∧ (0 : Byte) ∉ it.2 := by
    intro it hit
    obtain ⟨n, hmem, rfl⟩ := List.mem_map.mp hit
    rcases List.mem_append.mp hmem with h | h
    · exact hn n h
    · rw [List.mem_singleton.mp h]
      exact ⟨by decide, by decide⟩
  rw [nul_terminated_eq, parse_symbol_names_catalogue pre post _ q hitems]
  simp only [List.map_map]
  rw [List.take_of_length_le (by simp; omega)]
  simp [Function.comp_def]

/-- C2, instance: the producer's `symbol_names` array (its three names, the
sentinel, and the NUL that ends the string literal). -/
theorem parse_symbol_names_round_trip_witness :
    parse_symbol_names
        ([] ++ (nul_terminated ([str "unused_but_visible_function",
            str "global_visible_variable", str "function_pointer"] ++ [END_SYMBOLS])
          ++ zeros 1) ++ [])
        ([] : List Byte).length
        (nul_terminated ([str "unused_but_visible_function",
            str "global_visible_variable", str "function_pointer"] ++ [END_SYMBOLS])
          ++ zeros 1).length
      = Outcome.done ([str "unused_but_visible_function", str "global_visible_variable",
          str "function_pointer"] ++ [END_SYMBOLS]) :=
  parse_symbol_names_round_trip [] [] [str "unused_but_visible_function",
    str "global_visible_variable", str "function_pointer"] 1 (by decide) (by decide)

/-- C9: whatever the file holds, a completed `parse_symbol_names` gives at most
20 entries, each of them non-empty, and the loop bound of the model is never
used up; and a section made of non-empty NUL-free names, each followed by its
NUL, with any number of further NUL bytes before each name and after the last,
decodes to exactly its first 20 names: the extra NUL bytes give no entry and do
not count toward the cap. -/
theorem parse_symbol_names_cap_and_skip :
    (∀ (map : List Byte) (off size : Nat) (r : List (List Byte)),
        parse_symbol_names map off size = Outcome.done r →
        r.length ≤ 20 ∧ ∀ n ∈ r, n ≠ [])
    ∧ (∀ (map : List Byte) (off size : Nat),
        parse_symbol_names map off size ≠ Outcome.out_of_fuel)
    ∧ (∀ (pre post : List Byte) (items : List (Nat × List Byte)) (q : Nat),
        (∀ it ∈ items, it.2 ≠ [] ∧ (0 : Byte) ∉ it.2) →
        parse_symbol_names (pre ++ (name_list_bytes items ++ zeros q) ++ post) pre.length
            (name_list_bytes items ++ zeros q).length
          = Outcome.done ((items.map Prod.snd).take 20)) := by
  refine ⟨?_, ?_, ?_⟩
  · intro map off size r h
    have hb := parse_symbol_names_loop_bound map off size size 0 0 r h
    exact ⟨by omega, hb.2⟩
  · intro map off size
    exact parse_symbol_names_loop_terminates map off size size 0 0 (by omega)
  · intro pre post items q h
    exact parse_symbol_names_catalogue pre post items q h

/-- C9, instances: `\0\0a\0\0\0b\0` gives `[a, b]`, and 25 one-character names
give the first 20. -/
theorem parse_symbol_names_cap_and_skip_witness :
    parse_symbol_names ([] ++ (name_list_bytes [(2, str "a"), (2, str "b")] ++ zeros 0) ++ [])
        ([] : List Byte).length (name_list_bytes [(2, str "a"), (2, str "b")] ++ zeros 0).length
      = Outcome.done [str "a", str "b"]
    ∧ name_list_bytes [(2, str "a"), (2, str "b")] ++ zeros 0 = [0, 0, 97, 0, 0, 0, 98, 0]
    ∧ parse_symbol_names
        ([] ++ (name_list_bytes ((List.range 25).map (fun i => (0, [Fin.ofNat (65 + i)])))
          ++ zeros 0) ++ [])
        ([] : List Byte).length
        (name_list_bytes ((List.range 25).map (fun i => (0, [Fin.ofNat (65 + i)])))
          ++ zeros 0).length
      = Outcome.done ((List.range 20).map (fun i => [Fin.ofNat (65 + i)])) :=
  ⟨parse_symbol_names_cap_and_skip.2.2 [] [] [(2, str "a"), (2, str "b")] 0 (by decide),
    by decide,
    (parse_symbol_names_cap_and_skip.2.2 [] []
      ((List.range 25).map (fun i => (0, [Fin.ofNat (65 + i)]))) 0 (by decide)).trans
      (by decide)⟩

/-! ## The loop of `parse_address_table` -/

theorem parse_address_table_loop_exit (map : List Byte) (off size f offset count : Nat)
    (h : ¬ (offset < size ∧ count < 10)) :
    parse_address_table_loop map off size f offset count = Outcome.done [] := by
  cases f <;> simp only [parse_address_table_loop, if_neg h]

theorem read_le_piece (L field R : List Byte) (p n : Nat) (hp : L.length = p)
    (hn : field.length = n) : read_le (L ++ (field ++ R)) p n = some (le_value field) := by
  simp [read_le, read_bytes_piece L field R p n hp hn]

/-- The loop of `parse_address_table` over a section made of complete records
followed by a remainder of fewer than 40 bytes: it gives the first records with a
non-empty name, up to the cap, when the 32-byte read at the remainder (if the
loop gets there) stays inside the file. -/
theorem parse_address_table_loop_records (off size : Nat) (rem post : List Byte)
    (hrem : rem.length < 40) :
    ∀ (recs : List (List Byte × List Byte)) (L : List Byte) (offset count f : Nat),
      (∀ r ∈ recs, r.1.length = 32 ∧ r.2.length = 8) →
      L.length = off + offset →
      offset + 40 * recs.length + rem.length = size →
      size - offset ≤ f →
      (rem = [] ∨ 32 ≤ rem.length + post.length
        ∨ 10 ≤ count + ((recs.map record_value).filter (fun e => decide (e.1 ≠ []))).length) →
      parse_address_table_loop (L ++ (records_bytes recs ++ (rem ++ post))) off size f
          offset count
        = Outcome.done
            ((((recs.map record_value).filter (fun e => decide (e.1 ≠ [])))).take (10 - count)) := by
  intro recs
  induction recs with
  | nil =>
    intro L offset count f _ hL hsz hf hread
    simp only [List.length_nil, Nat.mul_zero, Nat.add_zero] at hsz
    simp only [List.map_nil, List.filter_nil, List.take_nil, records_bytes, List.nil_append,
      List.length_nil, Nat.add_zero] at hread ⊢
    by_cases hc : offset < size ∧ count < 10
    · obtain ⟨g, rfl⟩ : ∃ g, f = g + 1 := ⟨f - 1, by omega⟩
      have hrd : 32 ≤ rem.length + post.length := by
        rcases hread with h | h | h
        · rw [h] at hsz; simp at hsz; omega
        · exact h
        · omega
      have hb : ∃ field, read_bytes (L ++ (rem ++ post)) (off + offset) 32 = some field := by
        unfold read_bytes
        rw [if_pos (by simp; omega)]
        exact ⟨_, rfl⟩
      obtain ⟨field, hfield⟩ := hb
      rw [parse_address_table_loop, if_pos hc, hfield]
      simp only
      rw [if_pos (by omega)]
    · exact parse_address_table_loop_exit _ _ _ _ _ _ hc
  | cons r rest ih =>
    intro L offset count f hr hL hsz hf hread
    have hr0 := hr r (by simp)
    have hrest : ∀ r ∈ rest, r.1.length = 32 ∧ r.2.length = 8 := fun x h => hr x (by simp [h])
    simp only [List.length_cons] at hsz
    by_cases hc : count < 10
    · obtain ⟨g, rfl⟩ : ∃ g, f = g + 1 := ⟨f - 1, by omega⟩
      have e1 : L ++ (records_bytes (r :: rest) ++ (rem ++ post))
          = L ++ (r.1 ++ (r.2 ++ (records_bytes rest ++ (rem ++ post)))) := by
        simp [records_bytes]
      have e2 : L ++ (records_bytes (r :: rest) ++ (rem ++ post))
          = (L ++ r.1) ++ (r.2 ++ (records_bytes rest ++ (rem ++ post))) := by
        simp [records_bytes]
      have e3 : L ++ (records_bytes (r :: rest) ++ (rem ++ post))
          = (L ++ r.1 ++ r.2) ++ (records_bytes rest ++ (rem ++ post)) := by
        simp [records_bytes]
      have h1 : read_bytes (L ++ (records_bytes (r :: rest) ++ (rem ++ post))) (off + offset) 32
          = some r.1 := by
        rw [e1]; exact read_bytes_piece L r.1 _ _ 32 hL hr0.1
      have h2 : read_le (L ++ (records_bytes (r :: rest) ++ (rem ++ post)))
          (off + (offset + 32)) 8 = some (le_value r.2) := by
        rw [e2]; exact read_le_piece (L ++ r.1) r.2 _ _ 8 (by simp; omega) hr0.2
      rw [parse_address_table_loop, if_pos ⟨by omega, hc⟩, h1]
      simp only
      rw [if_neg (by omega), h2]
      simp only [List.map_cons, record_value]
      by_cases hname : buffer_string r.1 = []
      · have hl : ¬ (buffer_string r.1).length > 0 := by simp [hname]
        rw [if_neg hl, List.filter_cons_of_neg (by simp [hname])]
        by_cases hend : offset + 32 + 8 ≥ size
        · have hnil : rest = [] := by
            cases rest with
            | nil => rfl
            | cons _ _ => simp only [List.length_cons] at hsz; omega
          rw [if_pos hend, hnil]
          simp
        · rw [if_neg hend, e3]
          have hih := ih (L ++ r.1 ++ r.2) (offset + 32 + 8) count g hrest (by simp; omega)
            (by omega) (by omega)
            (by
              rw [List.map_cons, List.filter_cons_of_neg (by simp [record_value, hname])]
                at hread
              exact hread)
          simpa [record_value] using hih
      · have hl : (buffer_string r.1).length > 0 := List.length_pos.mpr hname
        rw [if_pos hl, List.filter_cons_of_pos (by simp [hname])]
        obtain ⟨k, hk⟩ : ∃ k, 10 - count = k + 1 := ⟨10 - count - 1, by omega⟩
        have hk2 : 10 - (count + 1) = k := by omega
        rw [hk, List.take_succ_cons]
        by_cases hend : offset + 32 + 8 ≥ size
        · have hnil : rest = [] := by
            cases rest with
            | nil => rfl
            | cons _ _ => simp only [List.length_cons] at hsz; omega
          rw [if_pos hend, hnil]
          simp
        · rw [if_neg hend, e3]
          have hih := ih (L ++ r.1 ++ r.2) (offset + 32 + 8) (count + 1) g hrest
            (by simp; omega) (by omega) (by omega)
            (by
              rw [List.map_cons, List.filter_cons_of_pos (by simp [record_value, hname])]
                at hread
              simp only [List.length_cons] at hread
              rcases hread with h | h | h
              · exact Or.inl h
              · exact Or.inr (Or.inl h)
              · exact Or.inr (Or.inr (by omega)))
          rw [hk2] at hih
          rw [hih]
          simp [Outcome.map, record_value]
    · rw [parse_address_table_loop_exit _ _ _ _ _ _ (fun h => hc h.2)]
      rw [show 10 - count = 0 by omega]
      simp

theorem buffer_string_padded (name : List Byte) (k : Nat) (h0 : (0 : Byte) ∉ name) :
    buffer_string (name ++ zeros k) = name := by
  induction name with
  | nil => cases k <;> simp [buffer_string, zeros, List.replicate_succ]
  | cons b t ih =>
    have hb : b ≠ 0 := fun e => h0 (by simp [e])
    have ht : (0 : Byte) ∉ t := fun e => h0 (by simp [e])
    have := ih ht
    simp only [buffer_string] at this ⊢
    rw [List.cons_append, List.takeWhile_cons, if_pos (by simp [hb]), this]

theorem length_le_bytes (n v : Nat) : (le_bytes n v).length = n := by
  induction n generalizing v with
  | zero => rfl
  | succ n ih => simp [le_bytes, ih]

theorem le_value_le_bytes (n v : Nat) : le_value (le_bytes n v) = v % 256 ^ n := by
  induction n generalizing v with
  | zero => simp [le_bytes, le_value, Nat.mod_one]
  | succ n ih =>
    simp only [le_bytes, le_value, ih, Fin.ofNat, Nat.mod_mod]
    rw [Nat.pow_succ, Nat.mul_comm (256 ^ n) 256, Nat.mod_mul]

theorem length_records_bytes (recs : List (List Byte × List Byte))
    (h : ∀ r ∈ recs, r.1.length = 32 ∧ r.2.length = 8) :
    (records_bytes recs).length = 40 * recs.length := by
  induction recs with
  | nil => rfl
  | cons r rest ih =>
    have hr := h r (by simp)
    have := ih (fun x hx => h x (by simp [hx]))
    simp only [records_bytes, List.length_append, List.length_cons]
    omega

/-! ## Claims on `parse_address_table` -/

/-- C3: for every list of at most 10 (name, address) pairs, each name non-empty,
NUL-free and at most 32 bytes long, each address below 2^64, the section made of
their 40-byte records (name NUL-padded to 32 bytes, address as 8 little-endian
bytes) decodes with `parse_address_table` to exactly the same list, wherever the
section lies in the file. -/
theorem parse_address_table_round_trip (pre post : List Byte)
    (symbols : List (List Byte × Nat)) (hlen : symbols.length ≤ 10)
    (hs : ∀ e ∈ symbols, e.1 ≠ [] ∧ (0 : Byte) ∉ e.1 ∧ e.1.length ≤ 32 ∧ e.2 < 2 ^ 64) :
    parse_address_table (pre ++ address_table_bytes symbols ++ post) pre.length
        (address_table_bytes symbols).length
      = Outcome.done symbols := by
  have hrecs : ∀ r ∈ symbols.map address_record, r.1.length = 32 ∧ r.2.length = 8 := by
    intro r hr
    obtain ⟨e, he, rfl⟩ := List.mem_map.mp hr
    have h := hs e he
    refine ⟨?_, length_le_bytes 8 e.2⟩
    simp only [address_record, pad32, zeros, List.length_append, List.length_replicate]
    omega
  have hval : (symbols.map address_record).map record_value = symbols := by
    rw [List.map_map]
    conv_rhs => rw [← List.map_id symbols]
    apply List.map_congr_left
    intro e he
    have h := hs e he
    simp only [Function.comp, record_value, address_record, pad32, id]
    rw [buffer_string_padded e.1 _ h.2.1, le_value_le_bytes, Nat.mod_eq_of_lt (by omega)]
  have hkeep : symbols.filter (fun e => decide (e.1 ≠ [])) = symbols := by
    apply List.filter_eq_self.mpr
    intro e he
    simpa using (hs e he).1
  have hsz := length_records_bytes _ hrecs
  simp only [List.length_map] at hsz
  unfold parse_address_table address_table_bytes
  have hmap : pre ++ records_bytes (symbols.map address_record) ++ post
      = pre ++ (records_bytes (symbols.map address_record) ++ ([] ++ post)) := by simp
  rw [hmap, parse_address_table_loop_records pre.length _ [] post (by simp)
    (symbols.map address_record) pre 0 0 _ hrecs (by simp) (by simp [hsz]) (by omega)
    (Or.inl rfl)]
  rw [hval, hkeep, List.take_of_length_le (by omega)]

/-- C3, instance: the records of `("alpha", 0x1000)` and `("beta", 0x2000)`. -/
theorem parse_address_table_round_trip_witness :
    parse_address_table
        ([] ++ address_table_bytes [(str "alpha", 0x1000), (str "beta", 0x2000)] ++ [])
        ([] : List Byte).length
        (address_table_bytes [(str "alpha", 0x1000), (str "beta", 0x2000)]).length
      = Outcome.done [(str "alpha", 0x1000), (str "beta", 0x2000)]
    ∧ (address_table_bytes [(str "alpha", 0x1000), (str "beta", 0x2000)]).length = 80 :=
  ⟨parse_address_table_round_trip [] [] [(str "alpha", 0x1000), (str "beta", 0x2000)]
    (by decide) (by decide), by decide⟩

theorem parse_address_table_loop_terminates (map : List Byte) (off size : Nat) :
    ∀ (f offset count : Nat), size - offset ≤ f →
      parse_address_table_loop map off size f offset count ≠ Outcome.out_of_fuel := by
  intro f
  induction f with
  | zero =>
    intro offset count hf
    have hp : ¬ offset < size := by omega
    simp [parse_address_table_loop, hp]
  | succ f ih =>
    intro offset count hf
    simp only [parse_address_table_loop]
    split
    · split
      · simp
      · split
        · simp
        · split
          · simp
          · split
            · split
              · simp
              · intro h
                have h1 := ih (offset + 32 + 8) (count + 1) (by omega)
                generalize parse_address_table_loop map off size f (offset + 32 + 8)
                  (count + 1) = x at h h1
                cases x with
                | done a => simp [Outcome.map] at h
                | fault => simp [Outcome.map] at h
                | out_of_fuel => exact h1 rfl
            · split
              · simp
              · exact ih _ _ (by omega)
    · simp

/-- C10 (as the code behaves): for an `.address_table` section made of complete
40-byte records followed by a remainder of fewer than 40 bytes, where the
remainder is empty or the file goes on for at least 32 bytes from its start,
`parse_address_table` gives, in order, the first 10 of the complete records
whose name is non-empty; a record whose name field starts with a NUL byte gives
no entry and is not counted; the remainder gives no entry.  The number of
complete records is the section size divided by 40. -/
theorem parse_address_table_records (pre post rem : List Byte)
    (recs : List (List Byte × List Byte))
    (hr : ∀ r ∈ recs, r.1.length = 32 ∧ r.2.length = 8) (hrem : rem.length < 40)
    (hread : rem = [] ∨ 32 ≤ rem.length + post.length) :
    parse_address_table (pre ++ (records_bytes recs ++ rem) ++ post) pre.length
        (records_bytes recs ++ rem).length
      = Outcome.done
          (((recs.map record_value).filter (fun e => decide (e.1 ≠ []))).take 10)
    ∧ (records_bytes recs ++ rem).length / 40 = recs.length := by
  have hsz := length_records_bytes recs hr
  constructor
  · unfold parse_address_table
    rw [mapping_assoc, parse_address_table_loop_records pre.length _ rem post hrem recs pre 0 0 _
      hr (by simp) (by simp [hsz]) (by omega)
      (by
        rcases hread with h | h
        · exact Or.inl h
        · exact Or.inr (Or.inl h))]
  · rw [List.length_append, hsz]
    omega

/-- C10, counterexample: a section of two complete records, the first with an
all-NUL name field, decodes to one entry, not to `min(10, 80 / 40) = 2`. -/
theorem parse_address_table_count_counterexample :
    parse_address_table (zeros 40 ++ address_table_bytes [(str "beta", 0x2000)]) 0 80
      = Outcome.done [(str "beta", 0x2000)]
    ∧ ¬ ∃ r, parse_address_table (zeros 40 ++ address_table_bytes [(str "beta", 0x2000)]) 0 80
          = Outcome.done r ∧ r.length = min 10 (80 / 40) := by
  have h : parse_address_table (zeros 40 ++ address_table_bytes [(str "beta", 0x2000)]) 0 80
      = Outcome.done [(str "beta", 0x2000)] := by decide
  refine ⟨h, ?_⟩
  rintro ⟨r, hr, hl⟩
  rw [h] at hr
  cases hr
  simp at hl

/-- C10, instance of `parse_address_table_records`: an all-NUL record, the
record of `("beta", 0x2000)`, a remainder of 5 bytes, and 27 further bytes in the
file. -/
theorem parse_address_table_records_witness :
    (parse_address_table
        ([] ++ (records_bytes [(zeros 32, zeros 8), address_record (str "beta", 0x2000)]
          ++ [1, 2, 3, 4, 5]) ++ zeros 27)
        ([] : List Byte).length
        (records_bytes [(zeros 32, zeros 8), address_record (str "beta", 0x2000)]
          ++ [1, 2, 3, 4, 5]).length
      = Outcome.done
          ((([(zeros 32, zeros 8), address_record (str "beta", 0x2000)].map
            record_value).filter (fun e => decide (e.1 ≠ []))).take 10)
      ∧ (records_bytes [(zeros 32, zeros 8), address_record (str "beta", 0x2000)]
          ++ [1, 2, 3, 4, 5]).length / 40
        = [(zeros 32, zeros 8), address_record (str "beta", 0x2000)].length)
    ∧ (([(zeros 32, zeros 8), address_record (str "beta", 0x2000)].map
          record_value).filter (fun e => decide (e.1 ≠ []))).take 10
        = [(str "beta", 0x2000)] :=
  ⟨parse_address_table_records [] (zeros 27) [1, 2, 3, 4, 5]
    [(zeros 32, zeros 8), address_record (str "beta", 0x2000)] (by decide) (by decide)
    (by decide), by decide⟩

/-! ## Claims on the dispatch of the section loop -/

theorem dispatch_custom_symtab (map : List Byte) (off size : Nat) :
    dispatch map (str ".custom_symtab") off size
      = (magic_string_check map off size).map Decoded.custom_symtab := by
  unfold dispatch strcmp_eq
  rw [if_neg (by decide), if_neg (by decide), if_neg (by decide), if_pos (by decide)]

theorem dispatch_custom_data (map : List Byte) (off size : Nat) :
    dispatch map (str ".custom_data") off size
      = (contains_data map off size).map Decoded.custom_data := by
  unfold dispatch strcmp_eq
  rw [if_neg (by decide), if_neg (by decide), if_neg (by decide), if_neg (by decide),
    if_neg (by decide), if_pos (by decide)]

/-- C4: a `.custom_symtab` section gives a tag exactly when its size is at least
16; the tag is then the last 16 bytes of the section cut at their first NUL,
whatever the bytes before them are; a section of fewer than 16 bytes gives no
tag. -/
theorem magic_trailer :
    (∀ (pre front tag post : List Byte), tag.length = 16 →
        dispatch (pre ++ (front ++ tag) ++ post) (str ".custom_symtab") pre.length
            (front ++ tag).length
          = Outcome.done (Decoded.custom_symtab (some (buffer_string tag))))
    ∧ (∀ (pre sec post : List Byte), sec.length < 16 →
        dispatch (pre ++ sec ++ post) (str ".custom_symtab") pre.length sec.length
          = Outcome.done (Decoded.custom_symtab none))
    ∧ (∀ (pre sec post : List Byte),
        (∃ tag, dispatch (pre ++ sec ++ post) (str ".custom_symtab") pre.length sec.length
          = Outcome.done (Decoded.custom_symtab (some tag))) ↔ 16 ≤ sec.length) := by
  have hA : ∀ (pre front tag post : List Byte), tag.length = 16 →
      dispatch (pre ++ (front ++ tag) ++ post) (str ".custom_symtab") pre.length
          (front ++ tag).length
        = Outcome.done (Decoded.custom_symtab (some (buffer_string tag))) := by
    intro pre front tag post htag
    rw [dispatch_custom_symtab]
    unfold magic_string_check
    rw [if_pos (by simp; omega)]
    have hm : pre ++ (front ++ tag) ++ post = (pre ++ front) ++ (tag ++ post) := by simp
    rw [hm, read_bytes_piece (pre ++ front) tag post _ 16 (by simp; omega) htag]
    rfl
  have hB : ∀ (pre sec post : List Byte), sec.length < 16 →
      dispatch (pre ++ sec ++ post) (str ".custom_symtab") pre.length sec.length
        = Outcome.done (Decoded.custom_symtab none) := by
    intro pre sec post hlt
    rw [dispatch_custom_symtab]
    unfold magic_string_check
    rw [if_neg (by omega)]
    rfl
  refine ⟨hA, hB, ?_⟩
  intro pre sec post
  constructor
  · rintro ⟨tag, h⟩
    by_contra hlt
    rw [hB pre sec post (by omega)] at h
    simp at h
  · intro h16
    refine ⟨buffer_string (sec.drop (sec.length - 16)), ?_⟩
    have hs : sec = sec.take (sec.length - 16) ++ sec.drop (sec.length - 16) :=
      (List.take_append_drop _ _).symm
    have := hA pre (sec.take (sec.length - 16)) (sec.drop (sec.length - 16)) post
      (by simp; omega)
    rw [← hs] at this
    exact this

/-- C4, instances: a 16-byte section holding `SYMBOLS_HERE` NUL-padded gives
`SYMBOLS_HERE`, also after the three 8-byte fields of the producer's record; a
15-byte section gives no tag. -/
theorem magic_trailer_witness :
    dispatch ([] ++ ([] ++ (str "SYMBOLS_HERE" ++ zeros 4)) ++ []) (str ".custom_symtab")
        ([] : List Byte).length ([] ++ (str "SYMBOLS_HERE" ++ zeros 4)).length
      = Outcome.done (Decoded.custom_symtab (some (buffer_string (str "SYMBOLS_HERE" ++ zeros 4))))
    ∧ buffer_string (str "SYMBOLS_HERE" ++ zeros 4) = str "SYMBOLS_HERE"
    ∧ dispatch ([] ++ (zeros 24 ++ (str "SYMBOLS_HERE" ++ zeros 4)) ++ []) (str ".custom_symtab")
        ([] : List Byte).length (zeros 24 ++ (str "SYMBOLS_HERE" ++ zeros 4)).length
      = Outcome.done (Decoded.custom_symtab (some (buffer_string (str "SYMBOLS_HERE" ++ zeros 4))))
    ∧ dispatch ([] ++ (str "SYMBOLS_HERE" ++ zeros 3) ++ []) (str ".custom_symtab")
        ([] : List Byte).length (str "SYMBOLS_HERE" ++ zeros 3).length
      = Outcome.done (Decoded.custom_symtab none) :=
  ⟨magic_trailer.1 [] [] (str "SYMBOLS_HERE" ++ zeros 4) [] (by decide), by decide,
    magic_trailer.1 [] (zeros 24) (str "SYMBOLS_HERE" ++ zeros 4) [] (by decide),
    magic_trailer.2.1 [] (str "SYMBOLS_HERE" ++ zeros 3) [] (by decide)⟩

/-- C8: a `.custom_data` section gives a word exactly when its size is at least
4; the word is then the first 4 bytes read as a little-endian two's-complement
32-bit integer, whatever follows them; a section of fewer than 4 bytes gives no
word. -/
theorem raw_word :
    (∀ (pre rest post : List Byte) (b0 b1 b2 b3 : Byte),
        dispatch (pre ++ (b0 :: b1 :: b2 :: b3 :: rest) ++ post) (str ".custom_data") pre.length
            (b0 :: b1 :: b2 :: b3 :: rest).length
          = Outcome.done (Decoded.custom_data (some
              ((b0.val : Int) + 256 * b1.val + 65536 * b2.val + 16777216 * b3.val
                - (if b3.val ≥ 128 then 2 ^ 32 else 0)))))
    ∧ (∀ (pre sec post : List Byte), sec.length < 4 →
        dispatch (pre ++ sec ++ post) (str ".custom_data") pre.length sec.length
          = Outcome.done (Decoded.custom_data none))
    ∧ (∀ (pre sec post : List Byte),
        (∃ word, dispatch (pre ++ sec ++ post) (str ".custom_data") pre.length sec.length
          = Outcome.done (Decoded.custom_data (some word))) ↔ 4 ≤ sec.length) := by
  have hA : ∀ (pre rest post : List Byte) (b0 b1 b2 b3 : Byte),
      dispatch (pre ++ (b0 :: b1 :: b2 :: b3 :: rest) ++ post) (str ".custom_data") pre.length
          (b0 :: b1 :: b2 :: b3 :: rest).length
        = Outcome.done (Decoded.custom_data (some
            ((b0.val : Int) + 256 * b1.val + 65536 * b2.val + 16777216 * b3.val
              - (if b3.val ≥ 128 then 2 ^ 32 else 0)))) := by
    intro pre rest post b0 b1 b2 b3
    rw [dispatch_custom_data]
    unfold contains_data
    rw [if_pos (by simp)]
    have hm : pre ++ (b0 :: b1 :: b2 :: b3 :: rest) ++ post
        = pre ++ ([b0, b1, b2, b3] ++ (rest ++ post)) := by simp
    rw [hm, read_le_piece pre [b0, b1, b2, b3] (rest ++ post) _ 4 rfl rfl]
    simp only [Outcome.map, le_value, int32]
    have h0 := b0.isLt
    have h1 := b1.isLt
    have h2 := b2.isLt
    have h3 := b3.isLt
    congr 3
    split <;> split <;> omega
  have hB : ∀ (pre sec post : List Byte), sec.length < 4 →
      dispatch (pre ++ sec ++ post) (str ".custom_data") pre.length sec.length
        = Outcome.done (Decoded.custom_data none) := by
    intro pre sec post hlt
    rw [dispatch_custom_data]
    unfold contains_data
    rw [if_neg (by omega)]
    rfl
  refine ⟨hA, hB, ?_⟩
  intro pre sec post
  constructor
  · rintro ⟨word, h⟩
    by_contra hlt
    rw [hB pre sec post (by omega)] at h
    simp at h
  · intro h4
    match sec, h4 with
    | b0 :: b1 :: b2 :: b3 :: rest, _ => exact ⟨_, hA pre rest post b0 b1 b2 b3⟩

/-- C8, instances: the bytes `2A 00 00 00` give 42, the bytes `FF FF FF FF` give
-1, and a 3-byte section gives no word. -/
theorem raw_word_witness :
    dispatch ([] ++ [0x2a, 0, 0, 0] ++ []) (str ".custom_data") 0 4
      = Outcome.done (Decoded.custom_data (some 42))
    ∧ dispatch ([] ++ [0xff, 0xff, 0xff, 0xff] ++ []) (str ".custom_data") 0 4
      = Outcome.done (Decoded.custom_data (some (-1)))
    ∧ dispatch ([] ++ [0x2a, 0, 0] ++ []) (str ".custom_data") ([] : List Byte).length
        ([0x2a, 0, 0] : List Byte).length
      = Outcome.done (Decoded.custom_data none) :=
  ⟨raw_word.1 [] [] [] 0x2a 0 0 0, raw_word.1 [] [] [] 0xff 0xff 0xff 0xff,
    raw_word.2.1 [] [0x2a, 0, 0] [] (by decide)⟩

theorem strstr_iff (haystack needle : List Byte) :
    strstr haystack needle = true ↔ needle <:+: haystack := by
  induction haystack with
  | nil => simp [strstr, List.isEmpty_iff]
  | cons a rest ih =>
    rw [strstr, Bool.or_eq_true, ih, List.infix_cons_iff, List.isPrefixOf_iff_prefix]

theorem is_custom_iff (name : List Byte) :
    is_custom name = true
      ↔ (str "custom" <:+: name ∨ str "symbol" <:+: name ∨ str "address" <:+: name) := by
  simp only [is_custom, Bool.or_eq_true, strstr_iff, or_assoc]

/-- C7 (as the code behaves): a section whose name contains `custom`, `symbol`
or `address` and is none of the six names of the dispatch (`.symbol_names`,
`.address_table`, `.symbol_registry`, `.custom_symtab`, `.custom_functions`,
`.custom_data`) is counted in `found_sections` and reported with its name,
offset and size only: the dispatch prints nothing for it. -/
theorem unknown_custom_section (map : List Byte) (shdr strtab n i found_sections : Nat)
    (name : List Byte) (off size : Nat)
    (hname : section_name map shdr strtab i = some name)
    (hsub : str "custom" <:+: name ∨ str "symbol" <:+: name ∨ str "address" <:+: name)
    (hnot : name ∉ [str ".symbol_names", str ".address_table", str ".symbol_registry",
      str ".custom_symtab", str ".custom_functions", str ".custom_data"])
    (hoff : sh_offset map shdr i = some off) (hsize : sh_size map shdr i = some size) :
    dispatch map name off size = Outcome.done Decoded.nothing
    ∧ custom_sections_loop map shdr strtab (n + 1) i found_sections
      = (custom_sections_loop map shdr strtab n (i + 1) (found_sections + 1)).map
          (fun r => (SectionReport.mk name off size Decoded.nothing :: r.1, r.2)) := by
  simp only [List.mem_cons, List.mem_singleton, List.not_mem_nil, or_false, not_or] at hnot
  obtain ⟨h1, h2, h3, h4, h5, h6⟩ := hnot
  have hd : dispatch map name off size = Outcome.done Decoded.nothing := by
    unfold dispatch strcmp_eq
    rw [if_neg (by simpa using h1), if_neg (by simpa using h2), if_neg (by simpa using h3),
      if_neg (by simpa using h4), if_neg (by simpa using h5), if_neg (by simpa using h6)]
  refine ⟨hd, ?_⟩
  rw [custom_sections_loop, hname]
  simp only
  rw [if_pos ((is_custom_iff name).mpr hsub), hoff, hsize]
  simp only [hd, Outcome.bind]

/-- C7, counterexample: a section named `.custom_functions` passes the substring
filter and is none of the five documented names, and the dispatch prints a
line of its own for it (`Contains function code`) instead of nothing; it is the
third section reported for the file `unknown_sections_example`. -/
theorem custom_functions_counterexample :
    is_custom (str ".custom_functions") = true
    ∧ str ".custom_functions" ∉ [str ".symbol_names", str ".address_table",
        str ".symbol_registry", str ".custom_symtab", str ".custom_data"]
    ∧ dispatch unknown_sections_example (str ".custom_functions") 380 1
        = Outcome.done (Decoded.custom_functions 1)
    ∧ dispatch unknown_sections_example (str ".custom_functions") 380 1
        ≠ Outcome.done Decoded.nothing
    ∧ section_name unknown_sections_example 64 320 2 = some (str ".custom_functions")
    ∧ sh_offset unknown_sections_example 64 2 = some 380
    ∧ sh_size unknown_sections_example 64 2 = some 1 := by
  decide

/-- C7, instances of `unknown_custom_section`: the sections `customXYZ` and
`.symbol_names2` of the file `unknown_sections_example`. -/
theorem unknown_custom_section_witness :
    (dispatch unknown_sections_example (str "customXYZ") 373 3 = Outcome.done Decoded.nothing
      ∧ custom_sections_loop unknown_sections_example 64 320 (3 + 1) 0 0
        = (custom_sections_loop unknown_sections_example 64 320 3 (0 + 1) (0 + 1)).map
            (fun r => (SectionReport.mk (str "customXYZ") 373 3 Decoded.nothing :: r.1, r.2)))
    ∧ (dispatch unknown_sections_example (str ".symbol_names2") 376 4
        = Outcome.done Decoded.nothing
      ∧ custom_sections_loop unknown_sections_example 64 320 (2 + 1) 1 1
        = (custom_sections_loop unknown_sections_example 64 320 2 (1 + 1) (1 + 1)).map
            (fun r => (SectionReport.mk (str ".symbol_names2") 376 4 Decoded.nothing :: r.1,
              r.2))) :=
  ⟨unknown_custom_section unknown_sections_example 64 320 3 0 0 (str "customXYZ") 373 3
      (by decide) ((is_custom_iff _).mp (by decide)) (by decide) (by decide) (by decide),
    unknown_custom_section unknown_sections_example 64 320 2 1 1 (str ".symbol_names2") 376 4
      (by decide) ((is_custom_iff _).mp (by decide)) (by decide) (by decide) (by decide)⟩

/-! ## Claims on the section header scan -/

theorem has_symbols_loop_spec (map : List Byte) (shdr : Nat) :
    ∀ (n i : Nat) (b : Bool), has_symbols_loop map shdr n i = Outcome.done b →
      (b = true ↔ ∃ j, i ≤ j ∧ j < i + n ∧
        ∃ t, sh_type map shdr j = some t ∧ (t = SHT_SYMTAB ∨ t = SHT_DYNSYM)) := by
  intro n
  induction n with
  | zero =>
    intro i b h
    simp only [has_symbols_loop, Outcome.done.injEq] at h
    subst h
    simp
    intro j h1 h2
    omega
  | succ n ih =>
    intro i b h
    simp only [has_symbols_loop] at h
    split at h
    · simp at h
    · rename_i t ht
      split at h
      · rename_i hty
        simp only [Outcome.done.injEq] at h
        subst h
        simp only [true_iff]
        exact ⟨i, Nat.le_refl i, by omega, t, ht, hty⟩
      · rename_i hty
        rw [ih (i + 1) b h]
        constructor
        · rintro ⟨j, h1, h2, hj⟩
          exact ⟨j, by omega, by omega, hj⟩
        · rintro ⟨j, h1, h2, t2, ht2, hty2⟩
          rcases Nat.eq_or_lt_of_le h1 with heq | hlt
          · subst heq
            rw [ht] at ht2
            cases ht2
            exact absurd hty2 hty
          · exact ⟨j, by omega, by omega, t2, ht2, hty2⟩

theorem has_symbols_loop_readable (map : List Byte) (shdr : Nat) :
    ∀ (types : List Nat) (i : Nat),
      (∀ j, j < types.length → sh_type map shdr (i + j) = types[j]?) →
      has_symbols_loop map shdr types.length i
        = Outcome.done (types.any (fun t => decide (t = SHT_SYMTAB ∨ t = SHT_DYNSYM))) := by
  intro types
  induction types with
  | nil => intro i _; rfl
  | cons t rest ih =>
    intro i h
    have h0 := h 0 (by simp)
    simp only [Nat.add_zero, List.getElem?_cons_zero] at h0
    simp only [List.length_cons, has_symbols_loop, h0, List.any_cons]
    by_cases hty : t = SHT_SYMTAB ∨ t = SHT_DYNSYM
    · simp [hty]
    · rw [if_neg hty, ih (i + 1) (fun j hj => by
        have := h (j + 1) (by simp; omega)
        simpa [Nat.add_assoc, Nat.add_comm 1 j] using this)]
      simp [hty]

theorem scan_report (map : List Byte) (r : Report)
    (h : scan map = Outcome.done (Printed.report r)) :
    ∃ shdr shnum shstrndx strtab sections,
      e_shoff map = some shdr ∧ e_shnum map = some shnum ∧ e_shstrndx map = some shstrndx
      ∧ sh_offset map shdr shstrndx = some strtab
      ∧ has_symbols_loop map shdr shnum 0 = Outcome.done r.has_symbols
      ∧ custom_sections_loop map shdr strtab shnum 0 0 = Outcome.done sections
      ∧ r.sections = sections.1 ∧ r.found_sections = sections.2
      ∧ r.symbol_recovery = (if sections.2 > 0 then "POSSIBLE" else "FAILED") := by
  unfold scan at h
  split at h
  · simp at h
  · split at h
    · simp at h
    · split at h
      · rename_i shdr shnum shstrndx h1 h2 h3
        split at h
        · simp at h
        · rename_i strtab h4
          cases hs : has_symbols_loop map shdr shnum 0 with
          | done b =>
            cases hc : custom_sections_loop map shdr strtab shnum 0 0 with
            | done sections =>
              rw [hs, hc] at h
              simp only [Outcome.bind, Outcome.done.injEq, Printed.report.injEq] at h
              subst h
              exact ⟨shdr, shnum, shstrndx, strtab, sections, h1, h2, h3, h4, hs, hc, rfl, rfl,
                rfl⟩
            | fault => rw [hs, hc] at h; simp [Outcome.bind] at h
            | out_of_fuel => rw [hs, hc] at h; simp [Outcome.bind] at h
          | fault => rw [hs] at h; simp [Outcome.bind] at h
          | out_of_fuel => rw [hs] at h; simp [Outcome.bind] at h
      · simp at h

theorem Outcome.bind_eq_done {α β : Type} {x : Outcome α} {f : α → Outcome β} {b : β}
    (h : x.bind f = Outcome.done b) : ∃ a, x = Outcome.done a ∧ f a = Outcome.done b := by
  cases x with
  | done a => exact ⟨a, rfl, by simpa [Outcome.bind] using h⟩
  | fault => simp [Outcome.bind] at h
  | out_of_fuel => simp [Outcome.bind] at h

theorem custom_sections_loop_spec (map : List Byte) (shdr strtab : Nat) :
    ∀ (n i found : Nat) (res : List SectionReport × Nat),
      custom_sections_loop map shdr strtab n i found = Outcome.done res →
      ∃ names : List (List Byte), names.length = n
        ∧ (∀ j, j < n → section_name map shdr strtab (i + j) = names[j]?)
        ∧ res.2 = found + (names.filter is_custom).length
        ∧ res.1.map SectionReport.name = names.filter is_custom := by
  intro n
  induction n with
  | zero =>
    intro i found res h
    simp only [custom_sections_loop, Outcome.done.injEq] at h
    subst h
    exact ⟨[], rfl, fun j hj => absurd hj (Nat.not_lt_zero j), rfl, rfl⟩
  | succ n ih =>
    intro i found res h
    simp only [custom_sections_loop] at h
    split at h
    · simp at h
    · rename_i name hname
      have hidx : ∀ (names : List (List Byte)),
          (∀ j, j < n → section_name map shdr strtab (i + 1 + j) = names[j]?) →
          ∀ j, j < n + 1 → section_name map shdr strtab (i + j) = (name :: names)[j]? := by
        intro names hn j hj
        cases j with
        | zero => simpa using hname
        | succ j =>
          have := hn j (by omega)
          rw [show i + (j + 1) = i + 1 + j by omega, this]
          simp
      split at h
      · rename_i hcustom
        split at h
        · obtain ⟨content, _, h2⟩ := Outcome.bind_eq_done h
          obtain ⟨r1, hr1, hres⟩ := Outcome.map_eq_done h2
          obtain ⟨names, hlen, hn, hcount, hnames⟩ := ih _ _ _ hr1
          subst hres
          refine ⟨name :: names, by simp [hlen], hidx names hn, ?_, ?_⟩
          · simp only [List.filter_cons_of_pos hcustom, List.length_cons, hcount]
            omega
          · simp [List.filter_cons_of_pos hcustom, hnames]
        · simp at h
      · rename_i hcustom
        obtain ⟨names, hlen, hn, hcount, hnames⟩ := ih _ _ _ h
        refine ⟨name :: names, by simp [hlen], hidx names hn, ?_, ?_⟩
        · rw [List.filter_cons_of_neg hcustom]; exact hcount
        · rw [List.filter_cons_of_neg hcustom]; exact hnames

/-- C5: in the report of a completed scan, `has_symbols` is true exactly when
one of the `e_shnum` section headers has type `SHT_SYMTAB` or `SHT_DYNSYM`; the
check, which stops at the first hit, gives on a readable table the same value
as looking at every header, and false on an empty table. -/
theorem standard_symbols_present :
    (∀ (map : List Byte) (r : Report),
        find_custom_sections (FileAccess.mapped map) = Outcome.done (Printed.report r) →
        ∃ shdr shnum, e_shoff map = some shdr ∧ e_shnum map = some shnum
          ∧ (r.has_symbols = true ↔ ∃ i, i < shnum ∧
              ∃ t, sh_type map shdr i = some t ∧ (t = SHT_SYMTAB ∨ t = SHT_DYNSYM)))
    ∧ (∀ (map : List Byte) (shdr : Nat) (types : List Nat),
        (∀ i, i < types.length → sh_type map shdr i = types[i]?) →
        has_symbols_loop map shdr types.length 0
          = Outcome.done (types.any (fun t => decide (t = SHT_SYMTAB ∨ t = SHT_DYNSYM))))
    ∧ (∀ (map : List Byte) (shdr : Nat), has_symbols_loop map shdr 0 0 = Outcome.done false) := by
  refine ⟨?_, ?_, fun _ _ => rfl⟩
  · intro map r h
    obtain ⟨shdr, shnum, _, _, _, h1, h2, _, _, hs, _⟩ := scan_report map r h
    refine ⟨shdr, shnum, h1, h2, ?_⟩
    rw [has_symbols_loop_spec map shdr shnum 0 _ hs]
    constructor
    · rintro ⟨j, _, h2, hj⟩
      exact ⟨j, by omega, hj⟩
    · rintro ⟨j, h2, hj⟩
      exact ⟨j, Nat.zero_le j, by omega, hj⟩
  · intro map shdr types h
    exact has_symbols_loop_readable map shdr types 0 (fun j hj => by
      simpa using h j hj)

/-- C5, instance: the file `unstripped_example`, whose second section header
has type `SHT_SYMTAB`, is reported with `has_symbols` true. -/
theorem standard_symbols_present_witness :
    (find_custom_sections (FileAccess.mapped unstripped_example)
        = Outcome.done (Printed.report unstripped_example_report)
      ∧ unstripped_example_report.has_symbols = true
      ∧ sh_type unstripped_example 64 1 = some SHT_SYMTAB)
    ∧ ∃ shdr shnum, e_shoff unstripped_example = some shdr
      ∧ e_shnum unstripped_example = some shnum
      ∧ (unstripped_example_report.has_symbols = true ↔ ∃ i, i < shnum ∧
          ∃ t, sh_type unstripped_example shdr i = some t ∧ (t = SHT_SYMTAB ∨ t = SHT_DYNSYM)) :=
  ⟨⟨by decide, rfl, by decide⟩,
    standard_symbols_present.1 unstripped_example unstripped_example_report (by decide)⟩

/-- C6: in the report of a completed scan, `found_sections` is the number of
sections of the table whose name contains `custom`, `symbol` or `address`, and
the verdict is `POSSIBLE` exactly when that number is positive (`FAILED` when it
is zero), whatever `has_symbols` is. -/
theorem summary_count_and_verdict (map : List Byte) (r : Report)
    (h : find_custom_sections (FileAccess.mapped map) = Outcome.done (Printed.report r)) :
    ∃ (shdr shnum shstrndx strtab : Nat) (names : List (List Byte)),
      e_shoff map = some shdr ∧ e_shnum map = some shnum ∧ e_shstrndx map = some shstrndx
      ∧ sh_offset map shdr shstrndx = some strtab
      ∧ names.length = shnum
      ∧ (∀ i, i < shnum → section_name map shdr strtab i = names[i]?)
      ∧ r.found_sections = (names.filter (fun name =>
          decide (str "custom" <:+: name ∨ str "symbol" <:+: name ∨ str "address" <:+: name))).length
      ∧ (r.symbol_recovery = "POSSIBLE" ↔ 0 < r.found_sections)
      ∧ (r.symbol_recovery = "FAILED" ↔ r.found_sections = 0) := by
  obtain ⟨shdr, shnum, shstrndx, strtab, sections, h1, h2, h3, h4, _, hc, _, hfound, hverdict⟩ :=
    scan_report map r h
  obtain ⟨names, hlen, hn, hcount, _⟩ := custom_sections_loop_spec map shdr strtab _ _ _ _ hc
  refine ⟨shdr, shnum, shstrndx, strtab, names, h1, h2, h3, h4, hlen, ?_, ?_, ?_, ?_⟩
  · intro i hi
    simpa using hn i hi
  · rw [hfound, hcount, Nat.zero_add]
    congr 1
    apply List.filter_congr
    intro name _
    rw [Bool.eq_iff_iff, is_custom_iff]
    simp
  · rw [hverdict, hfound]
    by_cases hp : sections.2 > 0
    · simp [hp]
    · simp [hp]
  · rw [hverdict, hfound]
    by_cases hp : sections.2 > 0
    · simp [hp]; omega
    · simp [hp]; omega

/-- C6, instance: the file `stripped_example` has no `SHT_SYMTAB` or `SHT_DYNSYM`
header and one section named `.custom_data`; its report has `has_symbols` false
and the verdict `POSSIBLE`. -/
theorem summary_count_and_verdict_witness :
    (find_custom_sections (FileAccess.mapped stripped_example)
        = Outcome.done (Printed.report stripped_example_report)
      ∧ stripped_example_report.has_symbols = false
      ∧ stripped_example_report.symbol_recovery = "POSSIBLE")
    ∧ ∃ (shdr shnum shstrndx strtab : Nat) (names : List (List Byte)),
      e_shoff stripped_example = some shdr ∧ e_shnum stripped_example = some shnum
      ∧ e_shstrndx stripped_example = some shstrndx
      ∧ sh_offset stripped_example shdr shstrndx = some strtab
      ∧ names.length = shnum
      ∧ (∀ i, i < shnum → section_name stripped_example shdr strtab i = names[i]?)
      ∧ stripped_example_report.found_sections = (names.filter (fun name =>
          decide (str "custom" <:+: name ∨ str "symbol" <:+: name ∨ str "address" <:+: name))).length
      ∧ (stripped_example_report.symbol_recovery = "POSSIBLE"
          ↔ 0 < stripped_example_report.found_sections)
      ∧ (stripped_example_report.symbol_recovery = "FAILED"
          ↔ stripped_example_report.found_sections = 0) :=
  ⟨⟨by decide, rfl, rfl⟩,
    summary_count_and_verdict stripped_example stripped_example_report (by decide)⟩

/-! ## Claims on `main` and on the magic check -/

/-- C11 (as the code behaves): `main` returns 1 when the argument count is not
exactly one path and 0 in every other case in which it returns: also when the
file cannot be opened, stat'd or mapped, and when its first bytes are not the
ELF magic.  `find_custom_sections` gives nothing back to `main`. -/
theorem main_exit_status :
    (∀ (argc : Nat) (file : FileAccess), argc ≠ 2 →
        main argc file = Outcome.done (Printed.usage, 1))
    ∧ (∀ (file : FileAccess) (out : Printed × Nat),
        main 2 file = Outcome.done out → out.2 = 0)
    ∧ main 2 FileAccess.open_fails = Outcome.done (Printed.perror "open", 0)
    ∧ main 2 FileAccess.fstat_fails = Outcome.done (Printed.perror "fstat", 0)
    ∧ main 2 FileAccess.mmap_fails = Outcome.done (Printed.perror "mmap", 0)
    ∧ (∀ (b0 b1 b2 b3 : Byte) (rest : List Byte), [b0, b1, b2, b3] ≠ ELFMAG →
        main 2 (FileAccess.mapped (b0 :: b1 :: b2 :: b3 :: rest))
          = Outcome.done (Printed.not_an_elf_file, 0)) := by
  refine ⟨?_, ?_, rfl, rfl, rfl, ?_⟩
  · intro argc file h
    simp [main, h]
  · intro file out h
    simp only [main, ne_eq, not_true_eq_false, if_false] at h
    obtain ⟨p, _, hp⟩ := Outcome.map_eq_done h
    rw [← hp]
  · intro b0 b1 b2 b3 rest h
    simp only [main, ne_eq, not_true_eq_false, if_false, find_custom_sections, scan]
    have hr : read_bytes (b0 :: b1 :: b2 :: b3 :: rest) 0 4 = some [b0, b1, b2, b3] := by
      simp [read_bytes]
    rw [hr]
    simp only [ne_eq, h, not_false_eq_true, if_true]
    rfl

/-- C11, counterexample: with one path argument and a file that cannot be
opened, `main` returns the exit status 0. -/
theorem main_exit_status_counterexample :
    main 2 FileAccess.open_fails = Outcome.done (Printed.perror "open", 0)
    ∧ ¬ ∃ (printed : Printed) (status : Nat),
        main 2 FileAccess.open_fails = Outcome.done (printed, status) ∧ status ≠ 0 := by
  refine ⟨rfl, ?_⟩
  rintro ⟨printed, status, h, hs⟩
  have h2 : main 2 FileAccess.open_fails = Outcome.done (Printed.perror "open", 0) := rfl
  rw [h2] at h
  simp only [Outcome.done.injEq, Prod.mk.injEq] at h
  exact hs h.2.symm

/-- C11, instances of `main_exit_status`: three arguments give the usage text
and status 1; a completed scan of `stripped_example` and a file that starts with
`MZ` both give status 0. -/
theorem main_exit_status_witness :
    main 3 (FileAccess.mapped stripped_example) = Outcome.done (Printed.usage, 1)
    ∧ (main 2 (FileAccess.mapped stripped_example)
          = Outcome.done (Printed.report stripped_example_report, 0)
        ∧ (Printed.report stripped_example_report, 0).2 = 0)
    ∧ main 2 (FileAccess.mapped (0x4d :: 0x5a :: 0x90 :: 0x00 :: [3, 0, 0, 0]))
        = Outcome.done (Printed.not_an_elf_file, 0) :=
  ⟨main_exit_status.1 3 (FileAccess.mapped stripped_example) (by decide),
    ⟨by decide, main_exit_status.2.1 (FileAccess.mapped stripped_example)
      (Printed.report stripped_example_report, 0) (by decide)⟩,
    main_exit_status.2.2.2.2.2 0x4d 0x5a 0x90 0x00 [3, 0, 0, 0] (by decide)⟩

/-- C12: for every file of at least four bytes whose first four bytes are not
`0x7F 'E' 'L' 'F'`, `find_custom_sections` prints `Not an ELF file` and nothing
else: no symbol check, no section, no summary, whatever the bytes after the
first four are. -/
theorem magic_mismatch_aborts (b0 b1 b2 b3 : Byte) (rest : List Byte)
    (h : [b0, b1, b2, b3] ≠ ELFMAG) :
    find_custom_sections (FileAccess.mapped (b0 :: b1 :: b2 :: b3 :: rest))
      = Outcome.done Printed.not_an_elf_file := by
  simp only [find_custom_sections, scan]
  have hr : read_bytes (b0 :: b1 :: b2 :: b3 :: rest) 0 4 = some [b0, b1, b2, b3] := by
    simp [read_bytes]
  rw [hr]
  simp only [ne_eq, h, not_false_eq_true, if_true]

/-- C12, instance: a file that starts with `MZ`, and `stripped_example` with its
first byte changed. -/
theorem magic_mismatch_aborts_witness :
    find_custom_sections (FileAccess.mapped (0x4d :: 0x5a :: 0x90 :: 0x00 :: [3, 0, 0, 0]))
      = Outcome.done Printed.not_an_elf_file
    ∧ find_custom_sections
        (FileAccess.mapped (0x7e :: 0x45 :: 0x4c :: 0x46 :: stripped_example.drop 4))
      = Outcome.done Printed.not_an_elf_file :=
  ⟨magic_mismatch_aborts 0x4d 0x5a 0x90 0x00 [3, 0, 0, 0] (by decide),
    magic_mismatch_aborts 0x7e 0x45 0x4c 0x46 (stripped_example.drop 4) (by decide)⟩

/-! ## Claims on `parse_symbol_registry` -/

theorem buffer_string_nul_free (text : List Byte) (h0 : (0 : Byte) ∉ text) :
    buffer_string text = text := by
  have := buffer_string_padded text 0 h0
  simpa [zeros] using this

theorem buffer_string_cut (text rest : List Byte) (h0 : (0 : Byte) ∉ text) :
    buffer_string (text ++ 0 :: rest) = text := by
  induction text with
  | nil => simp [buffer_string]
  | cons b t ih =>
    have hb : b ≠ 0 := fun e => h0 (by simp [e])
    have ht : (0 : Byte) ∉ t := fun e => h0 (by simp [e])
    have := ih ht
    simp only [buffer_string] at this ⊢
    rw [List.cons_append, List.takeWhile_cons, if_pos (by simp [hb]), this]

/-- C16 (as the code behaves): the text printed by `parse_symbol_registry` for a
section lying inside the file is the section's bytes before its first NUL: the
entire range, of length `sh_size`, when the range holds no NUL byte, and only
the part before the first NUL otherwise. -/
theorem parse_symbol_registry_text :
    (∀ (pre sec post : List Byte),
        parse_symbol_registry (pre ++ sec ++ post) pre.length sec.length
          = Outcome.done (buffer_string sec))
    ∧ (∀ (pre sec post : List Byte), (0 : Byte) ∉ sec →
        parse_symbol_registry (pre ++ sec ++ post) pre.length sec.length = Outcome.done sec)
    ∧ (∀ (pre text rest post : List Byte), (0 : Byte) ∉ text →
        parse_symbol_registry (pre ++ (text ++ 0 :: rest) ++ post) pre.length
            (text ++ 0 :: rest).length
          = Outcome.done text) := by
  have hA : ∀ (pre sec post : List Byte),
      parse_symbol_registry (pre ++ sec ++ post) pre.length sec.length
        = Outcome.done (buffer_string sec) := by
    intro pre sec post
    unfold parse_symbol_registry
    rw [List.append_assoc, read_bytes_piece pre sec post _ _ rfl rfl]
  refine ⟨hA, ?_, ?_⟩
  · intro pre sec post h0
    rw [hA, buffer_string_nul_free sec h0]
  · intro pre text rest post h0
    rw [hA, buffer_string_cut text rest h0]

/-- C16, counterexample: for the 3-byte section `a\0b` the printed text is `a`,
not the 3 bytes of the range. -/
theorem parse_symbol_registry_counterexample :
    parse_symbol_registry [0x61, 0, 0x62] 0 3 = Outcome.done [0x61]
    ∧ parse_symbol_registry [0x61, 0, 0x62] 0 3 ≠ Outcome.done [0x61, 0, 0x62] := by
  decide

/-- C16, instances of `parse_symbol_registry_text`: the producer's registry text
alone, and the producer's array with the NUL that ends it. -/
theorem parse_symbol_registry_text_witness :
    parse_symbol_registry ([] ++ symbol_registry_text ++ []) ([] : List Byte).length
        symbol_registry_text.length
      = Outcome.done symbol_registry_text
    ∧ parse_symbol_registry ([] ++ (symbol_registry_text ++ 0 :: []) ++ [])
        ([] : List Byte).length (symbol_registry_text ++ 0 :: []).length
      = Outcome.done symbol_registry_text :=
  ⟨parse_symbol_registry_text.2.1 [] symbol_registry_text [] (by decide),
    parse_symbol_registry_text.2.2 [] symbol_registry_text [] [] (by decide)⟩

/-! ## Claims on the order and the count of the reported sections -/

theorem custom_sections_loop_order (map : List Byte) (shdr strtab : Nat) :
    ∀ (n i found : Nat) (res : List SectionReport × Nat),
      custom_sections_loop map shdr strtab n i found = Outcome.done res →
      res.1.map (fun s => (some s.name, some s.sh_offset, some s.sh_size))
        = ((List.range' i n).filter (section_is_custom map shdr strtab)).map
            (fun j => (section_name map shdr strtab j, sh_offset map shdr j, sh_size map shdr j)) := by
  intro n
  induction n with
  | zero =>
    intro i found res h
    simp only [custom_sections_loop, Outcome.done.injEq] at h
    subst h
    rfl
  | succ n ih =>
    intro i found res h
    rw [List.range'_succ]
    simp only [custom_sections_loop] at h
    split at h
    · simp at h
    · rename_i name hname
      split at h
      · rename_i hcustom
        have hc : section_is_custom map shdr strtab i = true := by
          simp [section_is_custom, hname, hcustom]
        split at h
        · rename_i off size hoff hsize
          obtain ⟨content, _, h2⟩ := Outcome.bind_eq_done h
          obtain ⟨r1, hr1, hres⟩ := Outcome.map_eq_done h2
          subst hres
          rw [List.filter_cons_of_pos hc]
          simp only [List.map_cons, hname, hoff, hsize]
          rw [ih _ _ _ hr1]
        · simp at h
      · rename_i hcustom
        have hc : ¬ section_is_custom map shdr strtab i = true := by
          simp [section_is_custom, hname, hcustom]
        rw [List.filter_cons_of_neg hc]
        exact ih _ _ _ h

/-- C17: the sections reported by a completed scan are exactly the sections of
the table, index 0 to `e_shnum - 1`, that pass the substring filter, in table
order, each with the name, offset and size of its own header; nothing is sorted,
merged or left out, so two sections of the same name are both reported. -/
theorem report_order (map : List Byte) (r : Report)
    (h : find_custom_sections (FileAccess.mapped map) = Outcome.done (Printed.report r)) :
    ∃ (shdr shnum shstrndx strtab : Nat),
      e_shoff map = some shdr ∧ e_shnum map = some shnum ∧ e_shstrndx map = some shstrndx
      ∧ sh_offset map shdr shstrndx = some strtab
      ∧ r.sections.map (fun s => (some s.name, some s.sh_offset, some s.sh_size))
        = ((List.range shnum).filter (section_is_custom map shdr strtab)).map
            (fun i => (section_name map shdr strtab i, sh_offset map shdr i, sh_size map shdr i)) := by
  obtain ⟨shdr, shnum, shstrndx, strtab, sections, h1, h2, h3, h4, _, hc, hsec, _, _⟩ :=
    scan_report map r h
  refine ⟨shdr, shnum, shstrndx, strtab, h1, h2, h3, h4, ?_⟩
  rw [hsec, List.range_eq_range']
  exact custom_sections_loop_order map shdr strtab _ _ _ _ hc

/-- C17, instance: the file `duplicate_sections_example` has two sections named
`.custom_data`, at index 0 and 2; both are reported, in that order, each with its
own offset and size. -/
theorem report_order_witness :
    (find_custom_sections (FileAccess.mapped duplicate_sections_example)
        = Outcome.done (Printed.report duplicate_sections_report)
      ∧ duplicate_sections_report.sections.map
          (fun s => (s.name, s.sh_offset, s.sh_size))
        = [(str ".custom_data", 362, 4), (str ".custom_data", 367, 8)]
      ∧ (List.range 4).filter (section_is_custom duplicate_sections_example 64 320) = [0, 2])
    ∧ ∃ (shdr shnum shstrndx strtab : Nat),
      e_shoff duplicate_sections_example = some shdr
      ∧ e_shnum duplicate_sections_example = some shnum
      ∧ e_shstrndx duplicate_sections_example = some shstrndx
      ∧ sh_offset duplicate_sections_example shdr shstrndx = some strtab
      ∧ duplicate_sections_report.sections.map
          (fun s => (some s.name, some s.sh_offset, some s.sh_size))
        = ((List.range shnum).filter (section_is_custom duplicate_sections_example shdr strtab)).map
            (fun i => (section_name duplicate_sections_example shdr strtab i,
              sh_offset duplicate_sections_example shdr i,
              sh_size duplicate_sections_example shdr i)) :=
  ⟨⟨by decide, by decide, by decide⟩,
    report_order duplicate_sections_example duplicate_sections_report (by decide)⟩

theorem dispatch_nothing (map : List Byte) (name : List Byte) (off size : Nat)
    (h : name ∉ dispatch_names) : dispatch map name off size = Outcome.done Decoded.nothing := by
  simp only [dispatch_names, List.mem_cons, List.mem_singleton, List.not_mem_nil, or_false,
    not_or] at h
  obtain ⟨h1, h2, h3, h4, h5, h6⟩ := h
  unfold dispatch strcmp_eq
  rw [if_neg (by simpa using h1), if_neg (by simpa using h2), if_neg (by simpa using h3),
    if_neg (by simpa using h4), if_neg (by simpa using h5), if_neg (by simpa using h6)]

theorem custom_sections_loop_entries (map : List Byte) (shdr strtab : Nat) :
    ∀ (n i found : Nat) (res : List SectionReport × Nat),
      custom_sections_loop map shdr strtab n i found = Outcome.done res →
      res.2 = found + res.1.length
      ∧ ∀ s ∈ res.1, is_custom s.name = true
          ∧ dispatch map s.name s.sh_offset s.sh_size = Outcome.done s.content := by
  intro n
  induction n with
  | zero =>
    intro i found res h
    simp only [custom_sections_loop, Outcome.done.injEq] at h
    subst h
    simp
  | succ n ih =>
    intro i found res h
    simp only [custom_sections_loop] at h
    split at h
    · simp at h
    · rename_i name hname
      split at h
      · rename_i hcustom
        split at h
        · rename_i off size hoff hsize
          obtain ⟨content, hd, h2⟩ := Outcome.bind_eq_done h
          obtain ⟨r1, hr1, hres⟩ := Outcome.map_eq_done h2
          obtain ⟨hcount, hent⟩ := ih _ _ _ hr1
          subst hres
          refine ⟨by simp only [List.length_cons]; omega, ?_⟩
          intro s hs
          rcases List.mem_cons.mp hs with rfl | hs
          · exact ⟨hcustom, hd⟩
          · exact hent s hs
        · simp at h
      · exact ih _ _ _ h

/-- C19: each of the six names with a branch of its own in the dispatch contains
`custom`, `symbol` or `address`; the dispatch prints something only for these
names; and in the report of a completed scan every reported section passed the
filter and was counted (`found_sections` is the number of reported sections, so
the sections with decoded content are at most that many), and every section of
the table that bears one of the six names is among the reported ones. -/
theorem decoded_implies_counted :
    (∀ name ∈ dispatch_names, is_custom name = true)
    ∧ (∀ (map name : List Byte) (off size : Nat) (content : Decoded),
        dispatch map name off size = Outcome.done content → content ≠ Decoded.nothing →
        name ∈ dispatch_names)
    ∧ (∀ (map : List Byte) (r : Report),
        find_custom_sections (FileAccess.mapped map) = Outcome.done (Printed.report r) →
        r.sections.length = r.found_sections
        ∧ (∀ s ∈ r.sections, is_custom s.name = true
            ∧ dispatch map s.name s.sh_offset s.sh_size = Outcome.done s.content)
        ∧ (r.sections.filter (fun s => decide (s.content ≠ Decoded.nothing))).length
            ≤ r.found_sections
        ∧ ∃ (shdr shnum shstrndx strtab : Nat),
            e_shoff map = some shdr ∧ e_shnum map = some shnum
            ∧ e_shstrndx map = some shstrndx ∧ sh_offset map shdr shstrndx = some strtab
            ∧ ∀ (i : Nat) (name : List Byte), i < shnum →
                section_name map shdr strtab i = some name → name ∈ dispatch_names →
                name ∈ r.sections.map SectionReport.name) := by
  have hsix : ∀ name ∈ dispatch_names, is_custom name = true := by decide
  refine ⟨hsix, ?_, ?_⟩
  · intro map name off size content hd hne
    by_contra hnot
    rw [dispatch_nothing map name off size hnot] at hd
    simp only [Outcome.done.injEq] at hd
    exact hne hd.symm
  · intro map r h
    obtain ⟨shdr, shnum, shstrndx, strtab, sections, h1, h2, h3, h4, _, hc, hsec, hfound, _⟩ :=
      scan_report map r h
    obtain ⟨hcount, hent⟩ := custom_sections_loop_entries map shdr strtab _ _ _ _ hc
    obtain ⟨names, hlen, hn, _, hnames⟩ := custom_sections_loop_spec map shdr strtab _ _ _ _ hc
    have hlen2 : r.sections.length = r.found_sections := by
      rw [hsec, hfound, hcount]; omega
    refine ⟨hlen2, ?_, ?_, shdr, shnum, shstrndx, strtab, h1, h2, h3, h4, ?_⟩
    · rw [hsec]; exact hent
    · rw [← hlen2]; exact List.length_filter_le _ _
    · intro i name hi hname hmem
      have hget : names[i]? = some name := by
        have := hn i hi
        rw [Nat.zero_add, hname] at this
        exact this.symm
      rw [hsec, hnames]
      exact List.mem_filter.mpr ⟨List.getElem?_mem hget, hsix name hmem⟩

/-- C19, instance of `decoded_implies_counted` on the file `stripped_example`,
whose section 0 is named `.custom_data`. -/
theorem decoded_implies_counted_witness :
    is_custom (str ".custom_data") = true
    ∧ str ".custom_data" ∈ dispatch_names
    ∧ (stripped_example_report.sections.length = stripped_example_report.found_sections
      ∧ (∀ s ∈ stripped_example_report.sections, is_custom s.name = true
          ∧ dispatch stripped_example s.name s.sh_offset s.sh_size = Outcome.done s.content)
      ∧ (stripped_example_report.sections.filter
            (fun s => decide (s.content ≠ Decoded.nothing))).length
          ≤ stripped_example_report.found_sections
      ∧ ∃ (shdr shnum shstrndx strtab : Nat),
          e_shoff stripped_example = some shdr ∧ e_shnum stripped_example = some shnum
          ∧ e_shstrndx stripped_example = some shstrndx
          ∧ sh_offset stripped_example shdr shstrndx = some strtab
          ∧ ∀ (i : Nat) (name : List Byte), i < shnum →
              section_name stripped_example shdr strtab i = some name →
              name ∈ dispatch_names →
              name ∈ stripped_example_report.sections.map SectionReport.name) :=
  ⟨decoded_implies_counted.1 (str ".custom_data") (by decide),
    decoded_implies_counted.2.1 stripped_example (str ".custom_data") 215 4
      (Decoded.custom_data (some 42)) (by decide) (by decide),
    decoded_implies_counted.2.2 stripped_example stripped_example_report (by decide)⟩

/-! ## Claims on the validation of the header and of the section ranges -/

theorem Outcome.map_ne_out_of_fuel {α β : Type} (f : α → β) (x : Outcome α)
    (h : x ≠ Outcome.out_of_fuel) : x.map f ≠ Outcome.out_of_fuel := by
  cases x with
  | done a => simp [Outcome.map]
  | fault => simp [Outcome.map]
  | out_of_fuel => exact absurd rfl h

theorem has_symbols_loop_terminates (map : List Byte) (shdr : Nat) :
    ∀ (n i : Nat), has_symbols_loop map shdr n i ≠ Outcome.out_of_fuel := by
  intro n
  induction n with
  | zero => intro i; simp [has_symbols_loop]
  | succ n ih =>
    intro i
    simp only [has_symbols_loop]
    split
    · simp
    · split
      · simp
      · exact ih _

theorem dispatch_terminates (map name : List Byte) (off size : Nat) :
    dispatch map name off size ≠ Outcome.out_of_fuel := by
  unfold dispatch
  split
  · exact Outcome.map_ne_out_of_fuel _ _
      (parse_symbol_names_loop_terminates map off size size 0 0 (by omega))
  · split
    · exact Outcome.map_ne_out_of_fuel _ _
        (parse_address_table_loop_terminates map off size size 0 0 (by omega))
    · split
      · apply Outcome.map_ne_out_of_fuel
        unfold parse_symbol_registry
        split <;> simp
      · split
        · apply Outcome.map_ne_out_of_fuel
          unfold magic_string_check
          split
          · split <;> simp
          · simp
        · split
          · simp
          · split
            · apply Outcome.map_ne_out_of_fuel
              unfold contains_data
              split
              · split <;> simp
              · simp
            · simp

theorem custom_sections_loop_terminates (map : List Byte) (shdr strtab : Nat) :
    ∀ (n i found : Nat),
      custom_sections_loop map shdr strtab n i found ≠ Outcome.out_of_fuel := by
  intro n
  induction n with
  | zero => intro i found; simp [custom_sections_loop]
  | succ n ih =>
    intro i found
    simp only [custom_sections_loop]
    split
    · simp
    · rename_i name _
      split
      · split
        · rename_i off size _ _
          have hd := dispatch_terminates map name off size
          cases hx : dispatch map name off size with
          | done content =>
            simp only [Outcome.bind]
            exact Outcome.map_ne_out_of_fuel _ _ (ih _ _)
          | fault => simp [Outcome.bind]
          | out_of_fuel => exact absurd hx hd
        · simp
      · exact ih _ _

/-- C13 (as the code behaves): a file that starts with the ELF magic is never
rejected for its header: whatever `e_shoff`, `e_shnum` and `e_shstrndx` it
declares, the run either completes with a full report or reads outside the
file; no format error is printed. -/
theorem no_header_validation (rest : List Byte) :
    find_custom_sections (FileAccess.mapped (ELFMAG ++ rest)) = Outcome.fault
    ∨ ∃ r, find_custom_sections (FileAccess.mapped (ELFMAG ++ rest))
        = Outcome.done (Printed.report r) := by
  simp only [find_custom_sections, scan]
  have hr : read_bytes (ELFMAG ++ rest) 0 4 = some ELFMAG := by
    simp [read_bytes, ELFMAG]
  rw [hr]
  simp only [ne_eq, not_true_eq_false, if_false]
  split
  · rename_i shdr shnum shstrndx _ _ _
    split
    · exact Or.inl rfl
    · rename_i strtab _
      have h1 := has_symbols_loop_terminates (ELFMAG ++ rest) shdr shnum 0
      have h2 := custom_sections_loop_terminates (ELFMAG ++ rest) shdr strtab shnum 0 0
      cases hs : has_symbols_loop (ELFMAG ++ rest) shdr shnum 0 with
      | done b =>
        cases hc : custom_sections_loop (ELFMAG ++ rest) shdr strtab shnum 0 0 with
        | done res => exact Or.inr ⟨_, rfl⟩
        | fault => exact Or.inl rfl
        | out_of_fuel => exact absurd hc h2
      | fault => exact Or.inl rfl
      | out_of_fuel => exact absurd hs h1
  · exact Or.inl rfl

/-- C13, counterexample: `bad_strndx_example` starts with the ELF magic and
declares `e_shstrndx = 1` with `e_shnum = 1`; `truncated_table_example` starts
with the ELF magic and declares a table that ends after the end of the file.
Both are scanned to the end and a section is reported for each. -/
theorem header_validation_counterexample :
    (bad_strndx_example.take 4 = ELFMAG
      ∧ e_shnum bad_strndx_example = some 1 ∧ e_shstrndx bad_strndx_example = some 1
      ∧ find_custom_sections (FileAccess.mapped bad_strndx_example)
          = Outcome.done (Printed.report stripped_example_report)
      ∧ stripped_example_report.sections ≠ [])
    ∧ (truncated_table_example.take 4 = ELFMAG
      ∧ e_shoff truncated_table_example = some 91 ∧ e_shnum truncated_table_example = some 2
      ∧ 91 + 64 * 2 > truncated_table_example.length
      ∧ find_custom_sections (FileAccess.mapped truncated_table_example)
          = Outcome.done (Printed.report truncated_table_report)
      ∧ truncated_table_report.sections ≠ []) := by
  decide

theorem byte_at_extend (map extra : List Byte) (p : Nat) (b : Byte)
    (h : map[p]? = some b) : (map ++ extra)[p]? = some b := by
  obtain ⟨hlt, _⟩ := List.getElem?_eq_some.mp h
  rw [List.getElem?_append_left hlt, h]

theorem c_string_extend (extra : List Byte) :
    ∀ (l s : List Byte), c_string l = some s → c_string (l ++ extra) = some s := by
  intro l
  induction l with
  | nil => intro s h; simp [c_string] at h
  | cons b t ih =>
    intro s h
    simp only [List.cons_append, c_string] at h ⊢
    split
    · rename_i hb
      rw [if_pos hb] at h
      exact h
    · rename_i hb
      rw [if_neg hb] at h
      cases hc : c_string t with
      | none => rw [hc] at h; simp at h
      | some u =>
        rw [hc] at h
        have hu : c_string (t.append extra) = some u := ih u hc
        rw [hu]
        exact h

theorem string_at_extend (map extra : List Byte) (p : Nat) (s : List Byte)
    (h : string_at map p = some s) : string_at (map ++ extra) p = some s := by
  unfold string_at at h ⊢
  by_cases hp : p ≤ map.length
  · rw [List.drop_append_of_le_length hp]
    exact c_string_extend extra _ s h
  · rw [List.drop_eq_nil_of_le (by omega)] at h
    simp [c_string] at h

theorem read_bytes_extend (map extra : List Byte) (p n : Nat) (x : List Byte)
    (h : read_bytes map p n = some x) : read_bytes (map ++ extra) p n = some x := by
  unfold read_bytes at h ⊢
  split at h
  · rename_i hle
    rw [if_pos (by simp only [List.length_append]; omega)]
    rw [List.drop_append_of_le_length (by omega),
      List.take_append_of_le_length (by simp only [List.length_drop]; omega)]
    exact h
  · simp at h

theorem read_le_extend (map extra : List Byte) (p n v : Nat)
    (h : read_le map p n = some v) : read_le (map ++ extra) p n = some v := by
  unfold read_le at h ⊢
  cases hr : read_bytes map p n with
  | none => rw [hr] at h; simp at h
  | some x =>
    rw [hr] at h
    rw [read_bytes_extend map extra p n x hr]
    exact h

theorem parse_symbol_names_loop_extend (map extra : List Byte) (off size : Nat) :
    ∀ (f pos count : Nat) (r : List (List Byte)),
      parse_symbol_names_loop map off size f pos count = Outcome.done r →
      parse_symbol_names_loop (map ++ extra) off size f pos count = Outcome.done r := by
  intro f
  induction f with
  | zero =>
    intro pos count r h
    simp only [parse_symbol_names_loop] at h ⊢
    exact h
  | succ f ih =>
    intro pos count r h
    simp only [parse_symbol_names_loop] at h ⊢
    split at h
    · rename_i hc
      rw [if_pos hc]
      split at h
      · simp at h
      · rename_i b hb
        rw [byte_at_extend map extra _ b hb]
        simp only
        split at h
        · rename_i hb0
          rw [if_pos hb0]
          split at h
          · simp at h
          · rename_i name hs
            rw [string_at_extend map extra _ name hs]
            simp only
            obtain ⟨r1, hr1, hres⟩ := Outcome.map_eq_done h
            rw [ih _ _ _ hr1]
            simp only [Outcome.map, hres]
        · rename_i hb0
          rw [if_neg hb0]
          exact ih _ _ _ h
    · rename_i hc
      rw [if_neg hc]
      exact h

theorem parse_address_table_loop_extend (map extra : List Byte) (off size : Nat) :
    ∀ (f offset count : Nat) (r : List (List Byte × Nat)),
      parse_address_table_loop map off size f offset count = Outcome.done r →
      parse_address_table_loop (map ++ extra) off size f offset count = Outcome.done r := by
  intro f
  induction f with
  | zero =>
    intro offset count r h
    simp only [parse_address_table_loop] at h ⊢
    exact h
  | succ f ih =>
    intro offset count r h
    simp only [parse_address_table_loop] at h ⊢
    split at h
    · rename_i hc
      rw [if_pos hc]
      split at h
      · simp at h
      · rename_i field hfield
        rw [read_bytes_extend map extra _ _ field hfield]
        simp only
        split at h
        · rename_i hbrk
          rw [if_pos hbrk]
          exact h
        · rename_i hbrk
          rw [if_neg hbrk]
          split at h
          · simp at h
          · rename_i addr haddr
            rw [read_le_extend map extra _ _ addr haddr]
            simp only
            split at h
            · rename_i hname
              rw [if_pos hname]
              split at h
              · rename_i hend
                rw [if_pos hend]
                exact h
              · rename_i hend
                rw [if_neg hend]
                obtain ⟨r1, hr1, hres⟩ := Outcome.map_eq_done h
                rw [ih _ _ _ hr1]
                simp only [Outcome.map, hres]
            · rename_i hname
              rw [if_neg hname]
              split at h
              · rename_i hend
                rw [if_pos hend]
                exact h
              · rename_i hend
                rw [if_neg hend]
                exact ih _ _ _ h
    · rename_i hc
      rw [if_neg hc]
      exact h

theorem Outcome.map_done {α β : Type} (f : α → β) (x : Outcome α) (a : α)
    (h : x = Outcome.done a) : x.map f = Outcome.done (f a) := by
  rw [h]; rfl

theorem dispatch_extend (map extra name : List Byte) (off size : Nat) (content : Decoded)
    (h : dispatch map name off size = Outcome.done content) :
    dispatch (map ++ extra) name off size = Outcome.done content := by
  unfold dispatch at h ⊢
  by_cases h1 : strcmp_eq name (str ".symbol_names") = true
  · rw [if_pos h1] at h ⊢
    obtain ⟨r, hr, hres⟩ := Outcome.map_eq_done h
    rw [← hres]
    exact Outcome.map_done _ _ _ (parse_symbol_names_loop_extend map extra off size _ _ _ r hr)
  rw [if_neg h1] at h ⊢
  by_cases h2 : strcmp_eq name (str ".address_table") = true
  · rw [if_pos h2] at h ⊢
    obtain ⟨r, hr, hres⟩ := Outcome.map_eq_done h
    rw [← hres]
    exact Outcome.map_done _ _ _ (parse_address_table_loop_extend map extra off size _ _ _ r hr)
  rw [if_neg h2] at h ⊢
  by_cases h3 : strcmp_eq name (str ".symbol_registry") = true
  · rw [if_pos h3] at h ⊢
    obtain ⟨r, hr, hres⟩ := Outcome.map_eq_done h
    rw [← hres]
    apply Outcome.map_done
    unfold parse_symbol_registry at hr ⊢
    split at hr
    · simp at hr
    · rename_i x hx
      rw [read_bytes_extend map extra _ _ x hx]
      exact hr
  rw [if_neg h3] at h ⊢
  by_cases h4 : strcmp_eq name (str ".custom_symtab") = true
  · rw [if_pos h4] at h ⊢
    obtain ⟨r, hr, hres⟩ := Outcome.map_eq_done h
    rw [← hres]
    apply Outcome.map_done
    unfold magic_string_check at hr ⊢
    by_cases h16 : size ≥ 16
    · rw [if_pos h16] at hr ⊢
      split at hr
      · simp at hr
      · rename_i x hx
        rw [read_bytes_extend map extra _ _ x hx]
        exact hr
    · rw [if_neg h16] at hr ⊢
      exact hr
  rw [if_neg h4] at h ⊢
  by_cases h5 : strcmp_eq name (str ".custom_functions") = true
  · rw [if_pos h5] at h ⊢
    exact h
  rw [if_neg h5] at h ⊢
  by_cases h6 : strcmp_eq name (str ".custom_data") = true
  · rw [if_pos h6] at h ⊢
    obtain ⟨r, hr, hres⟩ := Outcome.map_eq_done h
    rw [← hres]
    apply Outcome.map_done
    unfold contains_data at hr ⊢
    by_cases h4b : size ≥ 4
    · rw [if_pos h4b] at hr ⊢
      split at hr
      · simp at hr
      · rename_i x hx
        rw [read_le_extend map extra _ _ x hx]
        exact hr
    · rw [if_neg h4b] at hr ⊢
      exact hr
  rw [if_neg h6] at h ⊢
  exact h

/-- C14 (as the code behaves): no decoder compares a section range with the file
length.  A section that the dispatch decodes in a file is decoded to the same
content in every longer file with the same first bytes, so a section whose
declared `sh_offset + sh_size` exceeds the file length is decoded like the same
section in a file that holds it whole, as long as the bytes read lie inside the
file; and after a section that was decoded the section loop goes on with the
following sections. -/
theorem no_file_length_check :
    (∀ (map extra name : List Byte) (off size : Nat) (content : Decoded),
        dispatch map name off size = Outcome.done content →
        dispatch (map ++ extra) name off size = Outcome.done content)
    ∧ (∀ (map : List Byte) (shdr strtab n i found_sections : Nat) (name : List Byte)
        (off size : Nat) (content : Decoded),
        section_name map shdr strtab i = some name → is_custom name = true →
        sh_offset map shdr i = some off → sh_size map shdr i = some size →
        dispatch map name off size = Outcome.done content →
        custom_sections_loop map shdr strtab (n + 1) i found_sections
          = (custom_sections_loop map shdr strtab n (i + 1) (found_sections + 1)).map
              (fun r => (SectionReport.mk name off size content :: r.1, r.2))) := by
  refine ⟨dispatch_extend, ?_⟩
  intro map shdr strtab n i found name off size content hname hcustom hoff hsize hd
  rw [custom_sections_loop, hname]
  simp only
  rw [if_pos hcustom, hoff, hsize]
  simp only [hd, Outcome.bind]

/-- C14, counterexample: in `oversized_section_example` the `.custom_data`
section is declared at offset 215 with size 1000 in a file of 219 bytes, and its
word is decoded and reported; and a `.symbol_registry` section declared with 8
bytes in a file of 2 bytes makes the decoder read outside the file. -/
theorem section_bounds_counterexample :
    (oversized_section_example.length = 219
      ∧ section_name oversized_section_example 64 192 0 = some (str ".custom_data")
      ∧ sh_offset oversized_section_example 64 0 = some 215
      ∧ sh_size oversized_section_example 64 0 = some 1000
      ∧ dispatch oversized_section_example (str ".custom_data") 215 1000
          = Outcome.done (Decoded.custom_data (some 42))
      ∧ find_custom_sections (FileAccess.mapped oversized_section_example)
          = Outcome.done (Printed.report oversized_section_report))
    ∧ (([0x61, 0x62] : List Byte).length < 0 + 8
      ∧ dispatch [0x61, 0x62] (str ".symbol_registry") 0 8 = Outcome.fault) := by
  decide

/-- C14, instances of `no_file_length_check`: the 4 bytes of the word 42 declared
as a `.custom_data` section of 8 bytes decode to 42 in the file of 4 bytes as in
the file of 8 bytes; and the section loop on `oversized_section_example` goes on
after the oversized section. -/
theorem no_file_length_check_witness :
    dispatch ([0x2a, 0, 0, 0] ++ [0, 0, 0, 0]) (str ".custom_data") 0 8
      = Outcome.done (Decoded.custom_data (some 42))
    ∧ custom_sections_loop oversized_section_example 64 192 (1 + 1) 0 0
      = (custom_sections_loop oversized_section_example 64 192 1 (0 + 1) (0 + 1)).map
          (fun r => (SectionReport.mk (str ".custom_data") 215 1000
            (Decoded.custom_data (some 42)) :: r.1, r.2)) :=
  ⟨no_file_length_check.1 [0x2a, 0, 0, 0] [0, 0, 0, 0] (str ".custom_data") 0 8
      (Decoded.custom_data (some 42)) (by decide),
    no_file_length_check.2 oversized_section_example 64 192 1 0 0 (str ".custom_data") 215 1000
      (Decoded.custom_data (some 42)) (by decide) (by decide) (by decide) (by decide)
      (by decide)⟩

/-! ## Reads of the decoders past the end of their section -/

/-- C15, the code at the failing input: the `.symbol_names` section `ab` (2
bytes, the last one not NUL) is decoded to a name that runs on into the bytes
after the section, `abcd` when `cd\0` follows and `abxy` when `xy\0` follows; in
the file `unterminated_names_example` the name reported for the section at
offset 293 of size 2 holds the first two bytes of the next section. -/
theorem parse_symbol_names_overrun :
    parse_symbol_names (str "ab" ++ (str "cd" ++ [0])) 0 2 = Outcome.done [str "abcd"]
    ∧ parse_symbol_names (str "ab" ++ (str "xy" ++ [0])) 0 2 = Outcome.done [str "abxy"]
    ∧ read_bytes unterminated_names_example 293 2 = some (str "ab")
    ∧ find_custom_sections (FileAccess.mapped unterminated_names_example)
        = Outcome.done (Printed.report unterminated_names_report) := by
  decide

/-! ## The records printed by `parse_address_table` -/

theorem parse_address_table_emitted_loop_done (map : List Byte) (off size : Nat) :
    ∀ (f offset count : Nat) (r : List (List Byte × Nat)),
      parse_address_table_loop map off size f offset count = Outcome.done r →
      parse_address_table_emitted_loop map off size f offset count = (r, Outcome.done ()) := by
  intro f
  induction f with
  | zero =>
    intro offset count r h
    simp only [parse_address_table_loop] at h
    simp only [parse_address_table_emitted_loop]
    split at h
    · simp at h
    · rename_i hc
      rw [if_neg hc]
      simp only [Outcome.done.injEq] at h
      rw [h]
  | succ f ih =>
    intro offset count r h
    simp only [parse_address_table_loop] at h
    simp only [parse_address_table_emitted_loop]
    split at h
    · rename_i hc
      rw [if_pos hc]
      split at h
      · simp at h
      · rename_i field hfield
        split at h
        · rename_i hbrk
          rw [if_pos hbrk]
          simp only [Outcome.done.injEq] at h
          rw [h]
        · rename_i hbrk
          rw [if_neg hbrk]
          split at h
          · simp at h
          · rename_i addr haddr
            split at h
            · rename_i hname
              rw [if_pos hname]
              split at h
              · rename_i hend
                rw [if_pos hend]
                simp only [Outcome.done.injEq] at h
                rw [h]
              · rename_i hend
                rw [if_neg hend]
                obtain ⟨r1, hr1, hres⟩ := Outcome.map_eq_done h
                rw [ih _ _ _ hr1, ← hres]
            · rename_i hname
              rw [if_neg hname]
              split at h
              · rename_i hend
                rw [if_pos hend]
                simp only [Outcome.done.injEq] at h
                rw [h]
              · rename_i hend
                rw [if_neg hend]
                exact ih _ _ _ h
    · rename_i hc
      rw [if_neg hc]
      simp only [Outcome.done.injEq] at h
      rw [h]

/-- The records printed by the loop of `parse_address_table` over a section made
of complete records followed by a remainder of fewer than 40 bytes, whatever
follows the section in the mapping. -/
theorem parse_address_table_emitted_loop_records (off size : Nat) (rem post : List Byte)
    (hrem : rem.length < 40) :
    ∀ (recs : List (List Byte × List Byte)) (L : List Byte) (offset count f : Nat),
      (∀ r ∈ recs, r.1.length = 32 ∧ r.2.length = 8) →
      L.length = off + offset →
      offset + 40 * recs.length + rem.length = size →
      size - offset ≤ f →
      (parse_address_table_emitted_loop (L ++ (records_bytes recs ++ (rem ++ post))) off size f
          offset count).1
        = ((recs.map record_value).filter (fun e => decide (e.1 ≠ []))).take (10 - count) := by
  intro recs
  induction recs with
  | nil =>
    intro L offset count f _ hL hsz hf
    simp only [List.length_nil, Nat.mul_zero, Nat.add_zero] at hsz
    simp only [List.map_nil, List.filter_nil, List.take_nil, records_bytes, List.nil_append]
    cases f with
    | zero =>
      simp only [parse_address_table_emitted_loop]
      split <;> rfl
    | succ g =>
      simp only [parse_address_table_emitted_loop]
      split
      · split
        · rfl
        · rw [if_pos (by omega)]
      · rfl
  | cons r rest ih =>
    intro L offset count f hr hL hsz hf
    have hr0 := hr r (by simp)
    have hrest : ∀ r ∈ rest, r.1.length = 32 ∧ r.2.length = 8 := fun x h => hr x (by simp [h])
    simp only [List.length_cons] at hsz
    by_cases hc : count < 10
    · obtain ⟨g, rfl⟩ : ∃ g, f = g + 1 := ⟨f - 1, by omega⟩
      have e1 : L ++ (records_bytes (r :: rest) ++ (rem ++ post))
          = L ++ (r.1 ++ (r.2 ++ (records_bytes rest ++ (rem ++ post)))) := by
        simp [records_bytes]
      have e2 : L ++ (records_bytes (r :: rest) ++ (rem ++ post))
          = (L ++ r.1) ++ (r.2 ++ (records_bytes rest ++ (rem ++ post))) := by
        simp [records_bytes]
      have e3 : L ++ (records_bytes (r :: rest) ++ (rem ++ post))
          = (L ++ r.1 ++ r.2) ++ (records_bytes rest ++ (rem ++ post)) := by
        simp [records_bytes]
      have h1 : read_bytes (L ++ (records_bytes (r :: rest) ++ (rem ++ post))) (off + offset) 32
          = some r.1 := by
        rw [e1]; exact read_bytes_piece L r.1 _ _ 32 hL hr0.1
      have h2 : read_le (L ++ (records_bytes (r :: rest) ++ (rem ++ post)))
          (off + (offset + 32)) 8 = some (le_value r.2) := by
        rw [e2]; exact read_le_piece (L ++ r.1) r.2 _ _ 8 (by simp; omega) hr0.2
      rw [parse_address_table_emitted_loop, if_pos ⟨by omega, hc⟩, h1]
      simp only
      rw [if_neg (by omega), h2]
      simp only [List.map_cons, record_value]
      by_cases hname : buffer_string r.1 = []
      · have hl : ¬ (buffer_string r.1).length > 0 := by simp [hname]
        rw [if_neg hl, List.filter_cons_of_neg (by simp [hname])]
        by_cases hend : offset + 32 + 8 ≥ size
        · have hnil : rest = [] := by
            cases rest with
            | nil => rfl
            | cons _ _ => simp only [List.length_cons] at hsz; omega
          rw [if_pos hend, hnil]
          simp
        · rw [if_neg hend, e3]
          have hih := ih (L ++ r.1 ++ r.2) (offset + 32 + 8) count g hrest (by simp; omega)
            (by omega) (by omega)
          simpa [record_value] using hih
      · have hl : (buffer_string r.1).length > 0 := List.length_pos.mpr hname
        rw [if_pos hl, List.filter_cons_of_pos (by simp [hname])]
        obtain ⟨k, hk⟩ : ∃ k, 10 - count = k + 1 := ⟨10 - count - 1, by omega⟩
        have hk2 : 10 - (count + 1) = k := by omega
        rw [hk, List.take_succ_cons]
        by_cases hend : offset + 32 + 8 ≥ size
        · have hnil : rest = [] := by
            cases rest with
            | nil => rfl
            | cons _ _ => simp only [List.length_cons] at hsz; omega
          rw [if_pos hend, hnil]
          simp
        · rw [if_neg hend, e3]
          have hih := ih (L ++ r.1 ++ r.2) (offset + 32 + 8) (count + 1) g hrest
            (by simp; omega) (by omega) (by omega)
          rw [hk2] at hih
          simp only
          rw [hih]
    · have hx : ¬ (offset < size ∧ count < 10) := fun h => hc h.2
      have h0 : (parse_address_table_emitted_loop
          (L ++ (records_bytes (r :: rest) ++ (rem ++ post))) off size f offset count).1 = [] := by
        cases f <;> simp only [parse_address_table_emitted_loop, if_neg hx]
      rw [h0, show 10 - count = 0 by omega]
      simp

/-- C18: for every `.address_table` section of `n` bytes lying inside the file,
made of its `n / 40` complete 40-byte records and a remainder of fewer than 40
bytes, the records printed by `parse_address_table` are exactly the first 10 of
the complete records whose name is non-empty, in order, whatever follows the
section in the mapping; a record whose name field starts with a NUL byte has an
empty name, is skipped and is not counted; a name is the bytes of the 32-byte
field before its first NUL (all of them when the field has no NUL) and an address
is the little-endian value of the 8 bytes after the field.  A run of the function
that completes returns these same records. -/
theorem parse_address_table_reference (pre post rem : List Byte)
    (recs : List (List Byte × List Byte))
    (hr : ∀ r ∈ recs, r.1.length = 32 ∧ r.2.length = 8) (hrem : rem.length < 40) :
    (parse_address_table_emitted (pre ++ (records_bytes recs ++ rem) ++ post) pre.length
        (records_bytes recs ++ rem).length).1
      = ((recs.map record_value).filter (fun e => decide (e.1 ≠ []))).take 10
    ∧ (records_bytes recs ++ rem).length / 40 = recs.length
    ∧ (∀ r, parse_address_table (pre ++ (records_bytes recs ++ rem) ++ post) pre.length
          (records_bytes recs ++ rem).length = Outcome.done r →
        r = ((recs.map record_value).filter (fun e => decide (e.1 ≠ []))).take 10)
    ∧ (∀ r : List Byte × List Byte, record_value r = (buffer_string r.1, le_value r.2))
    ∧ (∀ junk : List Byte, buffer_string ((0 : Byte) :: junk) = [])
    ∧ (∀ name junk : List Byte, (0 : Byte) ∉ name → buffer_string (name ++ 0 :: junk) = name)
    ∧ (∀ field : List Byte, (0 : Byte) ∉ field → buffer_string field = field)
    ∧ (∀ b0 b1 b2 b3 b4 b5 b6 b7 : Byte, le_value [b0, b1, b2, b3, b4, b5, b6, b7]
        = b0.val + 256 * b1.val + 256 ^ 2 * b2.val + 256 ^ 3 * b3.val + 256 ^ 4 * b4.val
          + 256 ^ 5 * b5.val + 256 ^ 6 * b6.val + 256 ^ 7 * b7.val) := by
  have hsz := length_records_bytes recs hr
  have hemit : (parse_address_table_emitted (pre ++ (records_bytes recs ++ rem) ++ post)
      pre.length (records_bytes recs ++ rem).length).1
      = ((recs.map record_value).filter (fun e => decide (e.1 ≠ []))).take 10 := by
    unfold parse_address_table_emitted
    rw [mapping_assoc, parse_address_table_emitted_loop_records pre.length _ rem post hrem recs
      pre 0 0 _ hr (by simp) (by simp [hsz]) (by omega)]
  refine ⟨hemit, ?_, ?_, fun _ => rfl, ?_, buffer_string_cut, buffer_string_nul_free, ?_⟩
  · rw [List.length_append, hsz]
    omega
  · intro r h
    unfold parse_address_table at h
    have hd := parse_address_table_emitted_loop_done _ _ _ _ _ _ r h
    unfold parse_address_table_emitted at hemit
    rw [hd] at hemit
    exact hemit
  · intro junk
    simp [buffer_string]
  · intro b0 b1 b2 b3 b4 b5 b6 b7
    simp only [le_value]
    omega

/-- C18, instances of `parse_address_table_reference`: the section of 45 bytes
that ends the mapping, one record and a remainder of 5 bytes, prints the record;
and a section of three records, the first with an all-NUL name field and the
second with bytes after the first NUL of its name field, prints the second and
the third. -/
theorem parse_address_table_reference_witness :
    (parse_address_table_emitted
        ([] ++ (records_bytes [address_record (str "alpha", 0x1000)] ++ [1, 2, 3, 4, 5]) ++ [])
        ([] : List Byte).length
        (records_bytes [address_record (str "alpha", 0x1000)] ++ [1, 2, 3, 4, 5]).length).1
      = [(str "alpha", 0x1000)]
    ∧ (records_bytes [address_record (str "alpha", 0x1000)] ++ [1, 2, 3, 4, 5]).length = 45
    ∧ (parse_address_table_emitted
        ([] ++ (records_bytes [(zeros 32, le_bytes 8 7),
            (str "ab" ++ 0 :: (str "junk" ++ zeros 25), le_bytes 8 0x2000),
            address_record (str "beta", 0x3000)] ++ []) ++ [])
        ([] : List Byte).length
        (records_bytes [(zeros 32, le_bytes 8 7),
            (str "ab" ++ 0 :: (str "junk" ++ zeros 25), le_bytes 8 0x2000),
            address_record (str "beta", 0x3000)] ++ []).length).1
      = [(str "ab", 0x2000), (str "beta", 0x3000)] :=
  ⟨(parse_address_table_reference [] [] [1, 2, 3, 4, 5] [address_record (str "alpha", 0x1000)]
      (by decide) (by decide)).1.trans (by decide),
    by decide,
    (parse_address_table_reference [] [] [] [(zeros 32, le_bytes 8 7),
      (str "ab" ++ 0 :: (str "junk" ++ zeros 25), le_bytes 8 0x2000),
      address_record (str "beta", 0x3000)] (by decide) (by decide)).1.trans (by decide)⟩

end SymbolRecovery
